import Mathlib

/-!
Verification of the KOTOR II Mod Organizer plugin
(plugins/basic_games/games/game_kotor2.py).

The texture tab resolver (Kotor2TextureTab.refresh), the mod layout
checker and fixer (Kotor2ModDataChecker.dataLooksValid, .fix and
._cleanup_root), the TGA thumbnail decoder (Kotor2SaveGame.getScreenshot)
and the hidden-file toggle (Kotor2TextureTab._toggle_hidden) are embedded
as pure functions. Python strings operate on code points, so they are
modelled through the character lists underlying Lean strings; case
folding and suffix tests then match the Python semantics exactly.
-/

namespace Kotor2

/-! ### String helpers modelling Python str, pathlib and os.path -/

/-- Case folding of a string, mapping every character to lower case,
modelling the Python str.lower operation on code points. -/
def lowerS (s : String) : String :=
  ⟨s.data.map Char.toLower⟩

/-- Bool test that the string s ends with the string suf, modelling
Python str.endswith. -/
def endsWithS (s suf : String) : Bool :=
  suf.data.isSuffixOf s.data

/-- Drop the last n characters, modelling the Python slice s[:-n]. -/
def dropRightS (s : String) (n : Nat) : String :=
  ⟨s.data.take (s.data.length - n)⟩

/-- The trailing component of a posix path (the part after the last
slash; the whole string when no slash occurs). -/
def basenameChars (l : List Char) : List Char :=
  (l.reverse.takeWhile (fun c => c ≠ '/')).reverse

/-- Suffix of the final path component, modelling pathlib Path.suffix:
the part from the last dot on, provided that dot is neither the first
nor the last character of the name; otherwise empty. -/
def pathSuffixS (s : String) : String :=
  let b := basenameChars s.data
  match b.reverse.findIdx? (fun c => c = '.') with
  | some j =>
      let i := b.length - 1 - j
      if 0 < i && i < b.length - 1 then ⟨b.drop i⟩ else ""
  | none => ""

/-- Extension of a file name, modelling os.path.splitext: the part from
the last dot on, provided some earlier character of the name is not a
dot (leading dots never start an extension); otherwise empty. The names
given to it in the checker contain no slash. -/
def splitextExtS (s : String) : String :=
  match s.data.reverse.findIdx? (fun c => c = '.') with
  | some j =>
      let i := s.data.length - 1 - j
      if (s.data.take i).any (fun c => c ≠ '.') then ⟨s.data.drop i⟩ else ""
  | none => ""

/-- Bool test that s ends with one of the given suffixes, modelling
Python str.endswith applied to a tuple of suffixes. -/
def endsWithAnyS (s : String) (sufs : List String) : Bool :=
  sufs.any (fun suf => endsWithS s suf)

/-- Lexicographic code point comparison of character lists, modelling
the Python string less-or-equal used by sorted and list.sort keys. -/
def strLeChars : List Char → List Char → Bool
  | [], _ => true
  | _ :: _, [] => false
  | a :: as, b :: bs =>
      if a.toNat = b.toNat then strLeChars as bs else decide (a.toNat < b.toNat)

/-- Lexicographic code point comparison of strings. -/
def strLe (a b : String) : Bool :=
  strLeChars a.data b.data

/-! ### The layered override resolver: scanning phase of
Kotor2TextureTab.refresh -/

/-- Kotor2TextureTab._EXTENSIONS: the texture file extensions handled by
the texture tab. -/
def textureExtensions : List String :=
  [".tga", ".tpc", ".txi", ".dds"]

/-- The hidden marker suffix appended to disabled files. -/
def mohidden : String := ".mohidden"

/-- State built by Kotor2TextureTab.refresh while scanning override
roots: winners maps case-folded relative paths to (source label,
relative path) and is kept as an insertion-ordered association list
exactly like the Python dict; hidden collects (source label,
marker-suffixed relative path) pairs in scan order. -/
structure RState where
  winners : List (String × String × String)
  hidden : List (String × String)
deriving Repr, DecidableEq

instance : Inhabited RState := ⟨⟨[], []⟩⟩

/-- Body of the per-file loop of Kotor2TextureTab.refresh (lines 227-241,
and the identical base loop at lines 245-259): rel is the posix relative
path of the file under its override root. For a marker-suffixed file the
code recomputes parent / name-without-marker, which equals the relative
path with its last nine characters removed; the recorded hidden entry
re-appends the marker. -/
def processFile (source : String) (st : RState) (rel : String) : RState :=
  let isHidden := endsWithS rel mohidden
  let targetRel := if isHidden then dropRightS rel 9 else rel
  let targetExt := lowerS (pathSuffixS targetRel)
  if targetExt ∉ textureExtensions then st
  else if isHidden then
    { st with hidden := st.hidden ++ [(source, targetRel ++ mohidden)] }
  else
    let key := lowerS targetRel
    if st.winners.any (fun w => w.1 = key) then st
    else { st with winners := st.winners ++ [(key, source, targetRel)] }

/-- One source scan of refresh: fold the per-file body over the relative
paths of the files enumerated under the override root of the source. -/
def processSource (st : RState) (src : String × List String) : RState :=
  src.2.foldl (processFile src.1) st

/-- The scanning phase of Kotor2TextureTab.refresh. The sources list is
the reversed mod_entries list of the code, so it is ordered highest
priority first; base is the optional Game Override entry, scanned last
with the identical loop body. Each source is given as (label, relative
posix paths of the files under its override root, in enumeration
order). -/
def refreshScan (sources : List (String × List String))
    (base : Option (String × List String)) : RState :=
  (sources ++ base.toList).foldl processSource ⟨[], []⟩

/-- Specification-side view of one file of a source as a potential
winners entry: the file qualifies when it is not marker-suffixed and its
extension is a texture extension; the entry is (case-folded key, source
label, relative path). -/
def winnerCand (source : String) (rel : String) :
    Option (String × String × String) :=
  let isHidden := endsWithS rel mohidden
  let targetExt := lowerS (pathSuffixS (if isHidden then dropRightS rel 9 else rel))
  if targetExt ∉ textureExtensions then none
  else if isHidden then none
  else some (lowerS rel, source, rel)

/-- Specification-side view of one file of a source as a potential
hidden entry: the file qualifies when it is marker suffixed and its
underlying extension is a texture extension; the recorded entry is the
source label with the un-suffixed path carrying the re-appended
marker. -/
def hiddenCand (source : String) (rel : String) : Option (String × String) :=
  if endsWithS rel mohidden = true
      ∧ lowerS (pathSuffixS (dropRightS rel 9)) ∈ textureExtensions then
    some (source, dropRightS rel 9 ++ mohidden)
  else none

/-- First-claim-wins insertion into the winners association list. -/
def insertWinner (ws : List (String × String × String))
    (c : String × String × String) : List (String × String × String) :=
  if ws.any (fun w => w.1 = c.1) then ws else ws ++ [c]

/-- All winner candidates of one source, in file enumeration order. -/
def sourceCands (src : String × List String) : List (String × String × String) :=
  src.2.filterMap (winnerCand src.1)

/-- All winner candidates in claim order: sources in priority order,
highest first, then the base entry. -/
def allCands (sources : List (String × List String))
    (base : Option (String × List String)) : List (String × String × String) :=
  ((sources ++ base.toList).map sourceCands).flatten

/-! ### Conflict grouping of winners (refresh lines 287-289, 334-359) -/

/-- Base key of a winner path: the relative path with its suffix removed
(pathlib with_suffix of the empty string), case folded; refresh
line 287. -/
def baseKeyOf (rel : String) : String :=
  lowerS (dropRightS rel (pathSuffixS rel).data.length)

/-- Extension of a winner path in the conflict grouping: its suffix,
lower cased, leading dots stripped; refresh line 288. -/
def extLowerOf (rel : String) : String :=
  ⟨((pathSuffixS rel).data.map Char.toLower).dropWhile (fun c => c = '.')⟩

/-- Members of the (potential) conflict group of a base key among a
winners list. -/
def groupMembers (ws : List (String × String × String)) (b : String) :
    List (String × String × String) :=
  ws.filter (fun w => baseKeyOf w.2.2 = b)

/-- The distinct extensions the winners sharing a base key contribute;
this is the set stored in base_exts for the key. -/
def extSet (ws : List (String × String × String)) (b : String) : List String :=
  ((groupMembers ws b).map (fun w => extLowerOf w.2.2)).dedup

/-- The three conflict flag values written into conflict_flags: major is
the flag written as bang bang, minor the single bang, plain the empty
string. -/
inductive ConflictFlag where
  | major
  | minor
  | plain
deriving DecidableEq, Repr

/-- The conflict_flags entry of a base key (refresh lines 347-359): an
entry exists only for groups with more than one distinct extension; it
is major for tpc plus txi, minor for tpc plus tga without txi, and plain
otherwise. -/
def conflictFlag (ws : List (String × String × String)) (b : String) :
    Option ConflictFlag :=
  let exts := extSet ws b
  if 1 < exts.length then
    some (if "tpc" ∈ exts ∧ "txi" ∈ exts then ConflictFlag.major
          else if "tpc" ∈ exts ∧ "tga" ∈ exts then ConflictFlag.minor
          else ConflictFlag.plain)
  else none

/-- The conflict_brushes test (refresh lines 334-350): a base key is
highlighted exactly when its group carries the major or the minor
flag. -/
def hasBrush (ws : List (String × String × String)) (b : String) : Bool :=
  match conflictFlag ws b with
  | some ConflictFlag.major => true
  | some ConflictFlag.minor => true
  | _ => false

/-! ### The presentation listing of refresh (lines 261-396) -/

/-- Stable insertion of an element into a sorted list: the element moves
past every earlier element that is not strictly greater, so equal keys
keep their original relative order. -/
def insertSorted {α : Type} (le : α → α → Bool) (x : α) : List α → List α
  | [] => [x]
  | y :: ys => if le x y && !le y x then x :: y :: ys else y :: insertSorted le x ys

/-- Stable sort by a total Bool comparison, modelling the stable Python
sorted and list.sort operations. -/
def sortByStable {α : Type} (le : α → α → Bool) (l : List α) : List α :=
  l.foldl (fun acc x => insertSorted le x acc) []

/-- The items list of refresh line 261: the winner entries sorted by
case-folded relative path. -/
def itemsOf (ws : List (String × String × String)) : List (String × String × String) :=
  sortByStable (fun a b => strLe (lowerS a.2.2) (lowerS b.2.2)) ws

/-- One row of the texture table, keeping the fields of the entries
dicts of refresh that the ordering and conflict logic read: source
label, relative path, base key, extension and the hidden mark. Name,
type, size and date are display fields read from the filesystem and are
not modelled. -/
structure TexEntry where
  src : String
  rel : String
  base : String
  ext : String
  hidden : Bool
deriving DecidableEq, Repr

instance : Inhabited TexEntry := ⟨⟨"", "", "", "", false⟩⟩

/-- The entries dict built for a winner (refresh lines 266-304). -/
def mkEntry (w : String × String × String) : TexEntry :=
  { src := w.2.1, rel := w.2.2, base := baseKeyOf w.2.2, ext := extLowerOf w.2.2,
    hidden := false }

/-- The entries dict built for a hidden entry (refresh lines 306-332):
base and extension are computed from the path with the marker stripped
when the case-folded path carries it. -/
def mkHiddenEntry (h : String × String) : TexEntry :=
  { src := h.1, rel := h.2,
    base := if endsWithS (lowerS h.2) mohidden then baseKeyOf (dropRightS h.2 9)
            else baseKeyOf h.2,
    ext := if endsWithS (lowerS h.2) mohidden then extLowerOf (dropRightS h.2 9)
           else extLowerOf h.2,
    hidden := true }

/-- The full entries list of refresh: winner entries in items order
followed by hidden entries in scan order. -/
def entriesOf (st : RState) : List TexEntry :=
  (itemsOf st.winners).map mkEntry ++ st.hidden.map mkHiddenEntry

/-- Comparison of rows by case-folded relative path, the key of the
three partition sorts of refresh lines 364-366. -/
def relLeE (a b : TexEntry) : Bool :=
  strLe (lowerS a.rel) (lowerS b.rel)

/-- Conflict partition of refresh line 361: non-hidden entries whose
base key carries a brush, sorted by case-folded relative path. -/
def conflictEntriesOf (st : RState) : List TexEntry :=
  sortByStable relLeE
    ((entriesOf st).filter (fun e => hasBrush (itemsOf st.winners) e.base && !e.hidden))

/-- Non-conflicted partition of refresh line 362. -/
def normalEntriesOf (st : RState) : List TexEntry :=
  sortByStable relLeE
    ((entriesOf st).filter (fun e => !hasBrush (itemsOf st.winners) e.base && !e.hidden))

/-- Hidden partition of refresh line 363. -/
def hiddenEntriesOf (st : RState) : List TexEntry :=
  sortByStable relLeE ((entriesOf st).filter (fun e => e.hidden))

/-- The insertion order of the rows into the tree (refresh line 371). -/
def rowsOf (st : RState) : List TexEntry :=
  conflictEntriesOf st ++ normalEntriesOf st ++ hiddenEntriesOf st

/-- The Err column flag of a row (refresh lines 372-381): the dot for
hidden rows, otherwise the conflict_flags entry of its base key with the
empty flag as default. -/
inductive RowFlag where
  | major
  | minor
  | dot
  | plain
deriving DecidableEq, Repr

/-- The sort weights of the Err column flags (_WEIGHT_MAJOR and
friends). -/
def rowWeight : RowFlag → Nat
  | RowFlag.major => 3
  | RowFlag.minor => 2
  | RowFlag.dot => 1
  | RowFlag.plain => 0

/-- Flag assigned to a row. -/
def rowFlagOf (items : List (String × String × String)) (e : TexEntry) : RowFlag :=
  if e.hidden then RowFlag.dot
  else
    match conflictFlag items e.base with
    | some ConflictFlag.major => RowFlag.major
    | some ConflictFlag.minor => RowFlag.minor
    | _ => RowFlag.plain

/-- The displayed order of the table: refresh line 396 re-sorts the tree
on the Err column in descending order, and the _TextureItem comparator
orders rows by their weight alone. Qt item sorting is stable, and the
weight takes only the four flag values, so the final order is the
concatenation of the four weight classes, highest weight first, each in
row insertion order. -/
def listingOf (sources : List (String × List String))
    (base : Option (String × List String)) : List TexEntry :=
  let st := refreshScan sources base
  let items := itemsOf st.winners
  let rows := rowsOf st
  rows.filter (fun e => rowFlagOf items e = RowFlag.major)
    ++ rows.filter (fun e => rowFlagOf items e = RowFlag.minor)
    ++ rows.filter (fun e => rowFlagOf items e = RowFlag.dot)
    ++ rows.filter (fun e => rowFlagOf items e = RowFlag.plain)

/-! ### The mod layout checker and fixer (Kotor2ModDataChecker) -/

/-- A virtual file tree node of the mobase IFileTree abstraction: a file
or a directory with named children. Sibling names are unique up to case
in mobase; the embedding relies on this only where the code does (name
based lookups). The root of a mod archive is a list of top-level
nodes. -/
inductive FileTree where
  | file : String → FileTree
  | dir : String → List FileTree → FileTree

instance : Inhabited FileTree := ⟨FileTree.file ""⟩

mutual

/-- Decidable equality of tree nodes. -/
def FileTree.decEq : (a b : FileTree) → Decidable (a = b)
  | FileTree.file a, FileTree.file b =>
      match String.decEq a b with
      | isTrue h => isTrue (by rw [h])
      | isFalse h => isFalse (by intro he; injection he with hh; exact h hh)
  | FileTree.file _, FileTree.dir _ _ => isFalse (by intro h; exact FileTree.noConfusion h)
  | FileTree.dir _ _, FileTree.file _ => isFalse (by intro h; exact FileTree.noConfusion h)
  | FileTree.dir a as, FileTree.dir b bs =>
      match String.decEq a b, FileTree.decEqL as bs with
      | isTrue h1, isTrue h2 => isTrue (by rw [h1, h2])
      | isFalse h1, _ => isFalse (by intro h; injection h with hh _; exact h1 hh)
      | isTrue _, isFalse h2 => isFalse (by intro h; injection h with _ hh; exact h2 hh)

/-- Decidable equality of sibling lists. -/
def FileTree.decEqL : (a b : List FileTree) → Decidable (a = b)
  | [], [] => isTrue rfl
  | [], _ :: _ => isFalse (by intro h; exact List.noConfusion h)
  | _ :: _, [] => isFalse (by intro h; exact List.noConfusion h)
  | x :: xs, y :: ys =>
      match FileTree.decEq x y, FileTree.decEqL xs ys with
      | isTrue h1, isTrue h2 => isTrue (by rw [h1, h2])
      | isFalse h1, _ => isFalse (by intro h; injection h with hh _; exact h1 hh)
      | isTrue _, isFalse h2 => isFalse (by intro h; injection h with _ hh; exact h2 hh)

end

instance : DecidableEq FileTree := FileTree.decEq

/-- Name of a node. -/
def nameOf : FileTree → String
  | FileTree.file n => n
  | FileTree.dir n _ => n

/-- The is_directory test of basic_features.utils. -/
def isDirB : FileTree → Bool
  | FileTree.file _ => false
  | FileTree.dir _ _ => true

/-- Children of a node (files have none). -/
def childrenOf : FileTree → List FileTree
  | FileTree.file _ => []
  | FileTree.dir _ cs => cs

mutual

/-- The directories of a node in preorder: the node itself when it is a
directory, followed by the directories below it. -/
def iterDirsT : FileTree → List FileTree
  | FileTree.file _ => []
  | FileTree.dir n cs => FileTree.dir n cs :: iterDirs cs

/-- Kotor2ModDataChecker._iter_dirs: every directory of the forest in
preorder (each directory before its subdirectories, then the following
siblings). -/
def iterDirs : List FileTree → List FileTree
  | [] => []
  | e :: es => iterDirsT e ++ iterDirs es

end

/-- Kotor2ModDataChecker._find_dirs_named: the directories anywhere in
the forest whose lowered name equals the lowered given name. -/
def findDirsNamed (t : List FileTree) (nm : String) : List FileTree :=
  (iterDirs t).filter (fun d => lowerS (nameOf d) = lowerS nm)

mutual

/-- The directories of a node in preorder, each paired with the name of
its parent. -/
def dirsWithParentT : String → FileTree → List (String × FileTree)
  | _, FileTree.file _ => []
  | p, FileTree.dir n cs => (p, FileTree.dir n cs) :: dirsWithParent n cs

/-- Directories of the forest in preorder, each paired with the name of
its parent; the root carries the empty name, which is what the mobase
root tree reports. Used for the display names of the tslpatchdata
prompt. -/
def dirsWithParent : String → List FileTree → List (String × FileTree)
  | _, [] => []
  | p, e :: es => dirsWithParentT p e ++ dirsWithParent p es

end

/-- The keys of Kotor2ModDataChecker._valid_map, in source order. -/
def validMapKeys : List String :=
  ["override", "movies", "data", "lips", "modules",
   "streammusic", "streamsounds", "streamvoice", "texturepacks"]

/-- The concatenated extension tuples of _valid_map, in source order
(the all_exts of the constructor and the valid_exts of the cleanup). -/
def allValidExts : List String :=
  [".tga", ".dds", ".mdl", ".mdx", ".uti", ".utc",
   ".ncs", ".nss", ".2da", ".dlg", ".wav", ".mp3",
   ".bik", ".txi", ".tpc",
   ".bik", ".bif", ".mod", ".erf", ".rim", ".mod",
   ".wav", ".wav", ".wav", ".erf"]

/-- Kotor2ModDataChecker._ignored_exts. -/
def ignoredExts : List String :=
  [".txt", ".pdf", ".png", ".jpg", ".jpeg", ".bmp", ".gif",
   ".md", ".rtf", ".doc", ".docx", ".ini", ".html", ".url",
   ".log", ".bak", ".xml", ".docx#"]

/-- Kotor2ModDataChecker._restricted_dirs. -/
def restrictedDirs : List String := ["data"]

/-- The allowed top-level names of _cleanup_root: the valid map keys
plus override and tslpatchdata. -/
def validTop : List String := validMapKeys ++ ["override", "tslpatchdata"]

/-- Rule 1 of dataLooksValid (lines 572-574): a tslpatchdata directory
exists somewhere. -/
def rule1 (t : List FileTree) : Bool :=
  !(findDirsNamed t "tslpatchdata").isEmpty

/-- Rule 2 (lines 577-579): a restricted directory name occurs
anywhere. -/
def rule2 (t : List FileTree) : Bool :=
  (iterDirs t).any (fun d => lowerS (nameOf d) ∈ restrictedDirs)

/-- A directory holds at least one file child whose splitext extension
is not ignored (the inner loops of rules 3 and 5). -/
def rule3Entry (e : FileTree) : Bool :=
  (childrenOf e).any (fun c =>
    !isDirB c && decide (splitextExtS (lowerS (nameOf c)) ∉ ignoredExts))

/-- A directory holds a nested directory with a canonical name that has
at least one file child (the inner loop of rule 4, lines 609-617). -/
def rule4Entry (e : FileTree) : Bool :=
  (childrenOf e).any (fun c =>
    isDirB c && decide (lowerS (nameOf c) ∈ validMapKeys)
      && (childrenOf c).any (fun g => !isDirB g))

/-- Rules 3 and 4 (lines 592-617): some root-level directory with a
non-canonical name triggers the wrapper or double-wrap case. -/
def rule34 (t : List FileTree) : Bool :=
  t.any (fun e =>
    isDirB e && decide (lowerS (nameOf e) ∉ validMapKeys)
      && (rule3Entry e || rule4Entry e))

mutual

/-- Rule 5 check of one node: the node itself when it is a directory
with a non-canonical name and no canonical ancestor and a non-ignored
file child, or any node below it. -/
def rule5T (underValid : Bool) : FileTree → Bool
  | FileTree.file _ => false
  | FileTree.dir n cs =>
      ((!(decide (lowerS n ∈ validMapKeys) || underValid))
          && rule3Entry (FileTree.dir n cs))
        || rule5Aux (underValid || decide (lowerS n ∈ validMapKeys)) cs

/-- Rule 5 (lines 620-630): some directory anywhere with a non-canonical
name and no canonical ancestor holds a non-ignored file; the flag
records whether a canonical-named ancestor was passed. -/
def rule5Aux (underValid : Bool) : List FileTree → Bool
  | [] => false
  | e :: es => rule5T underValid e || rule5Aux underValid es

end

/-- Rule 6 (lines 633-636): some canonical directory name occurs
anywhere in the tree. -/
def rule6 (t : List FileTree) : Bool :=
  validMapKeys.any (fun k => !(findDirsNamed t k).isEmpty)

/-- Rule 7 (lines 639-641): some loose root file carries one of the
valid extensions as a name suffix. -/
def rule7 (t : List FileTree) : Bool :=
  t.any (fun e => !isDirB e && endsWithAnyS (lowerS (nameOf e)) allValidExts)

/-- Rule 8 (lines 644-645): a root file is named dialog.tlk. -/
def rule8 (t : List FileTree) : Bool :=
  t.any (fun e => !isDirB e && lowerS (nameOf e) = "dialog.tlk")

/-- mobase.ModDataChecker verdicts. -/
inductive CheckReturn where
  | VALID
  | FIXABLE
  | INVALID
deriving DecidableEq, Repr

/-- Kotor2ModDataChecker.dataLooksValid: the rule chain in source
order. -/
def dataLooksValid (t : List FileTree) : CheckReturn :=
  if rule1 t then CheckReturn.FIXABLE
  else if rule2 t then CheckReturn.INVALID
  else if rule34 t then CheckReturn.FIXABLE
  else if rule5Aux false t then CheckReturn.FIXABLE
  else if rule6 t then CheckReturn.VALID
  else if rule7 t then CheckReturn.FIXABLE
  else if rule8 t then CheckReturn.VALID
  else CheckReturn.INVALID

/-- Lookup in an association list where a later binding wins, modelling
a Python dict built by repeated assignment. -/
def lookupLastD (m : List (String × FileTree)) (k : String) : Option FileTree :=
  match m.reverse.find? (fun p => p.1 = k) with
  | some p => some p.2
  | none => none

mutual

/-- Remove the first preorder occurrence of the given subtree below a
node; the flag reports whether it was found. -/
def removeNodeT : FileTree → FileTree → FileTree × Bool
  | FileTree.file n, _ => (FileTree.file n, false)
  | FileTree.dir n cs, d =>
      let r := removeNodeL cs d
      (FileTree.dir n r.1, r.2)

/-- Remove the first preorder occurrence of the given subtree from the
forest, modelling detaching a specific node; the flag reports whether it
was found. -/
def removeNodeL : List FileTree → FileTree → List FileTree × Bool
  | [], _ => ([], false)
  | e :: es, d =>
      if e = d then (es, true)
      else
        let re := removeNodeT e d
        if re.2 then (re.1 :: es, true)
        else
          let r := removeNodeL es d
          (e :: r.1, r.2)

end

/-- filetree.move(d, nm) for a top-level destination name: mobase move
fails (leaving the tree unchanged) when an entry of that case-folded
name already exists at top level; otherwise the subtree is detached and
re-attached at top level under the new name. The nm arguments used are
lower case. -/
def moveDirToTop (t : List FileTree) (d : FileTree) (nm : String) : List FileTree :=
  if t.any (fun e => lowerS (nameOf e) = nm) then t
  else (removeNodeL t d).1 ++ [FileTree.dir nm (childrenOf d)]

/-- Detach every top-level entry whose lowered name differs from nm (the
pruning loops after the tslpatchdata and override moves). -/
def pruneTopTo (t : List FileTree) (nm : String) : List FileTree :=
  t.filter (fun e => lowerS (nameOf e) = nm)

/-- The valid_dirs scan of fix (lines 698-709): every directory holding
at least one file child whose lowered name does not end with an ignored
extension. The parent-is-None skip of the code never fires, since
_iter_dirs only yields nodes below the root. -/
def validDirsOf (t : List FileTree) : List FileTree :=
  (iterDirs t).filter (fun d =>
    (childrenOf d).any (fun c =>
      !isDirB c && !(endsWithAnyS (lowerS (nameOf c)) ignoredExts)))

/-- The keep test of the override cleanup (lines 554-565): only files
whose splitext extension is neither ignored nor outside the valid
set. -/
def keepOverrideChild (c : FileTree) : Bool :=
  !isDirB c
    && decide (splitextExtS (lowerS (nameOf c)) ∉ ignoredExts)
    && decide (splitextExtS (lowerS (nameOf c)) ∈ allValidExts)

mutual

/-- Clean the first preorder directory named override below a node, when
one exists; the flag reports whether one was found. -/
def cleanOverrideT : FileTree → FileTree × Bool
  | FileTree.file n => (FileTree.file n, false)
  | FileTree.dir n cs =>
      if lowerS n = "override" then
        (FileTree.dir n (cs.filter keepOverrideChild), true)
      else
        let r := cleanOverrideFirst cs
        (FileTree.dir n r.1, r.2)

/-- Clean the children of the first preorder directory named override,
when one exists; the flag reports whether one was found. -/
def cleanOverrideFirst : List FileTree → List FileTree × Bool
  | [] => ([], false)
  | e :: es =>
      let re := cleanOverrideT e
      if re.2 then (re.1 :: es, true)
      else
        let r := cleanOverrideFirst es
        (e :: r.1, r.2)

end

/-- Kotor2ModDataChecker._cleanup_root: drop every top-level entry whose
lowered name is not an allowed top-level name, then clean the first
directory named override anywhere in what remains. -/
def cleanupRoot (t : List FileTree) : List FileTree :=
  let t1 := t.filter (fun e => lowerS (nameOf e) ∈ validTop)
  (cleanOverrideFirst t1).1

/-- Remove the first occurrence of a node from a sibling list. -/
def eraseFirstNode : List FileTree → FileTree → List FileTree
  | [], _ => []
  | e :: es, f => if e = f then es else e :: eraseFirstNode es f

/-- filetree.move(child, "override/" ++ name) for a file child of the
kept directory (flatten branch, lines 749-751): the destination resolves
against the first top-level entry whose case-folded name is override; if
it is a directory already holding an entry of the same case-folded name
the move fails and nothing changes (mobase FAIL_IF_EXISTS); if it is a
file the path resolution fails and nothing changes; if none exists the
override directory is created with the moved file. -/
def moveChildToOverride (t : List FileTree) (keepName : String) (f : FileTree) :
    List FileTree :=
  match t.find? (fun e => lowerS (nameOf e) = "override") with
  | some (FileTree.dir onm ocs) =>
      if ocs.any (fun c => lowerS (nameOf c) = lowerS (nameOf f)) then t
      else
        t.map (fun e =>
          match e with
          | FileTree.dir m cs =>
              if m = keepName then FileTree.dir m (eraseFirstNode cs f)
              else if m = onm then FileTree.dir m (cs ++ [f])
              else FileTree.dir m cs
          | x => x)
  | some (FileTree.file _) => t
  | none =>
      (t.map (fun e =>
        match e with
        | FileTree.dir m cs =>
            if m = keepName then FileTree.dir m (eraseFirstNode cs f)
            else FileTree.dir m cs
        | x => x)) ++ [FileTree.dir "override" [f]]

/-- filetree.move(f, "override/" ++ name) for a loose root file (lines
776-777), with the same destination semantics. -/
def moveRootFileToOverride (t : List FileTree) (f : FileTree) : List FileTree :=
  match t.find? (fun e => lowerS (nameOf e) = "override") with
  | some (FileTree.dir onm ocs) =>
      if ocs.any (fun c => lowerS (nameOf c) = lowerS (nameOf f)) then t
      else
        (eraseFirstNode t f).map (fun e =>
          match e with
          | FileTree.dir m cs =>
              if m = onm then FileTree.dir m (cs ++ [f]) else FileTree.dir m cs
          | x => x)
  | some (FileTree.file _) => t
  | none => eraseFirstNode t f ++ [FileTree.dir "override" [f]]

/-- The loose-file branch of fix (lines 761-780): move every non-ignored
root file into override (created if absent anywhere) and clean the root;
with no such file the tree is returned unchanged. -/
def fixLoose (t : List FileTree) : List FileTree :=
  let rootFiles := t.filter (fun e => !isDirB e)
  let looseValid := rootFiles.filter
    (fun f => !(endsWithAnyS (lowerS (nameOf f)) ignoredExts))
  if looseValid.isEmpty then t
  else
    let t1 := if (findDirsNamed t "override").isEmpty
      then t ++ [FileTree.dir "override" []] else t
    cleanupRoot (looseValid.foldl moveRootFileToOverride t1)

/-- The single-root-directory flatten branch of fix (lines 739-756),
falling through to the loose-file branch otherwise: ensure an override
directory exists (the existence check searches every depth), move the
direct file children of the kept directory into override, then clean the
root. -/
def fixFlatten (t : List FileTree) : List FileTree :=
  match t.filter isDirB with
  | [keep] =>
      let t1 := if (findDirsNamed t "override").isEmpty
        then t ++ [FileTree.dir "override" []] else t
      let files := (childrenOf keep).filter (fun c => !isDirB c)
      cleanupRoot
        (files.foldl (fun acc f => moveChildToOverride acc (nameOf keep) f) t1)
  | _ => fixLoose t

/-- The valid_dirs stage of fix (lines 698-736): with more than one
candidate a user choice is requested; a selection moves the chosen
directory to the top as override and detaches everything else; a
declined or empty selection falls through to the flatten stage. The
choice function receives the option labels and returns the index of the
selection, or none when the dialog is cancelled. -/
def fixAfterTsl (uchoice : List String → Option Nat) (t : List FileTree) :
    List FileTree :=
  let validDirs := validDirsOf t
  if 1 < validDirs.length then
    let options := validDirs.map nameOf
    let mapping := options.zip validDirs
    match uchoice options with
    | some i =>
        match options.get? i with
        | some choice =>
            if choice = "" then fixFlatten t
            else
              match lookupLastD mapping choice with
              | some keep => pruneTopTo (moveDirToTop t keep "override") "override"
              | none => fixFlatten t
        | none => fixFlatten t
    | none => fixFlatten t
  else fixFlatten t

/-- Kotor2ModDataChecker.fix: the tslpatchdata stages followed by the
valid_dirs, flatten and loose-file stages. With several tslpatchdata
directories a user choice (by parent display name, Python dict with
later duplicate keys winning) moves the chosen one to the top and prunes
the rest; a declined or empty selection falls through to the later
stages; exactly one tslpatchdata directory is moved without a prompt. -/
def fix (uchoice : List String → Option Nat) (t : List FileTree) : List FileTree :=
  let tsl := (dirsWithParent "" t).filter
    (fun p => lowerS (nameOf p.2) = lowerS "tslpatchdata")
  if 1 < tsl.length then
    let options := tsl.map (fun p => p.1)
    let mapping := options.zip (tsl.map (fun p => p.2))
    match uchoice options with
    | some i =>
        match options.get? i with
        | some choice =>
            if choice = "" then fixAfterTsl uchoice t
            else
              match lookupLastD mapping choice with
              | some d => pruneTopTo (moveDirToTop t d "tslpatchdata") "tslpatchdata"
              | none => fixAfterTsl uchoice t
        | none => fixAfterTsl uchoice t
    | none => fixAfterTsl uchoice t
  else if tsl.length = 1 then
    match tsl.head? with
    | some p => pruneTopTo (moveDirToTop t p.2 "tslpatchdata") "tslpatchdata"
    | none => fixAfterTsl uchoice t
  else fixAfterTsl uchoice t

/-- The children of the first top-level entry whose case-folded name is
override, when it is a directory: the files reachable directly under the
canonical asset directory. -/
def overrideChildren (t : List FileTree) : List FileTree :=
  match t.find? (fun e => lowerS (nameOf e) = "override") with
  | some (FileTree.dir _ cs) => cs
  | _ => []

/-! ### The TGA thumbnail decoder (Kotor2SaveGame.getScreenshot) -/

/-- Byte access data[i] on a byte list; all uses are range-guarded. -/
def byteAt (data : List Nat) (i : Nat) : Nat := data.getD i 0

/-- Python slice assignment l[a:b] = r on a byte array, with the Python
clamping of out-of-range bounds. -/
def sliceAssign (l : List Nat) (a b : Nat) (r : List Nat) : List Nat :=
  l.take a ++ r ++ l.drop b

/-- Python slice l[a:a+n]. -/
def sliceSeg (l : List Nat) (a n : Nat) : List Nat :=
  (l.drop a).take n

/-- Simultaneous swap of the entries at positions i and j, modelling the
Python tuple assignment in the channel swap loop. -/
def swapAt2 (l : List Nat) (i j : Nat) : List Nat :=
  (l.set i (l.getD j 0)).set j (l.getD i 0)

/-- The index sequence range(i, len, step) of the Python channel swap
loop, for the positive steps 3 and 4 used there; the fuel argument
bounds the recursion and len is always enough of it. -/
def swapIndicesAux (step len : Nat) : Nat → Nat → List Nat
  | 0, _ => []
  | fuel + 1, i => if i < len then i :: swapIndicesAux step len fuel (i + step) else []

/-- The index sequence range(0, len, step). -/
def swapIndices (step len : Nat) : List Nat :=
  swapIndicesAux step len len 0

/-- The red/blue channel swap loop of getScreenshot: for every pixel
start index, swap the bytes at i and i+2; an out-of-range access raises
in Python so the whole decode yields the absent result. -/
def swapLoop (step : Nat) (l : List Nat) : Option (List Nat) :=
  (swapIndices step l.length).foldlM
    (fun acc i =>
      if i + 2 < acc.length then some (swapAt2 acc i (i + 2)) else none) l

/-- The TGA decoding core of Kotor2SaveGame.getScreenshot: width and
height are 16 bit little endian fields at offset 12, the pixel depth is
the byte at offset 16 and the image id length the byte at offset 0; only
the depths 24 and 32 are accepted; the pixel rows are copied in reverse
vertical order and the red and blue channels of every pixel group are
swapped. Inputs shorter than 17 bytes raise in Python while reading the
header, which the code turns into the absent result. -/
def getScreenshot (data : List Nat) : Option (Nat × Nat × List Nat) :=
  if data.length < 17 then none
  else
    let width := byteAt data 12 + 256 * byteAt data 13
    let height := byteAt data 14 + 256 * byteAt data 15
    let bpp := byteAt data 16
    if bpp = 24 ∨ bpp = 32 then
      let idLen := byteAt data 0
      let img := data.drop (18 + idLen)
      let bppBytes := bpp / 8
      let rowSize := width * bppBytes
      let flipped := (List.range height).foldl
        (fun fl y =>
          sliceAssign fl (y * rowSize) ((y + 1) * rowSize)
            (sliceSeg img ((height - 1 - y) * rowSize) rowSize))
        (List.replicate img.length 0)
      (swapLoop bppBytes flipped).map (fun out => (width, height, out))
    else none

/-- A well-formed 18 byte TGA header for a 2 by 2 image with the given
pixel depth: no image id, origin zero, little endian width 2 and
height 2. -/
def tgaHeader (bpp : Nat) : List Nat :=
  [0, 0, 0, 0, 0, 0, 0, 0, 0, 0, 0, 0, 2, 0, 2, 0, bpp, 0]

/-! ### The hidden-file toggle (Kotor2TextureTab._toggle_hidden) -/

/-- Kotor2TextureTab._toggle_hidden: the rename target computed for a
file name, if any. Unhiding only strips the marker from a name that
carries it; hiding always appends the marker; the remaining case
returns without renaming. -/
def toggleHiddenNewName (name : String) (currentlyHidden : Bool) :
    Option String :=
  if currentlyHidden && endsWithS name mohidden then some (dropRightS name 9)
  else if !currentlyHidden then some (name ++ mohidden)
  else none

/-- Effect of Kotor2TextureTab._toggle_hidden on the listing of the
directory holding the file: when a rename target exists the file is
renamed, otherwise the listing is untouched. -/
def toggleHidden (files : List String) (name : String)
    (currentlyHidden : Bool) : List String :=
  match toggleHiddenNewName name currentlyHidden with
  | none => files
  | some nn => files.map (fun f => if f = name then nn else f)

/-! ### Theorems -/

/-- C9: getScreenshot on a well-formed 24 bit 2 by 2 input returns the
2 by 2 pixel buffer whose two rows appear in reverse order and whose red
and blue channels are swapped in every pixel relative to the input
payload bytes; on an input declaring any pixel depth other than 24
or 32 (for instance 16) it returns the absent result. -/
theorem c9_decode_flip_swap :
    (∀ b0 b1 b2 b3 b4 b5 b6 b7 b8 b9 b10 b11 : Nat,
        getScreenshot (tgaHeader 24 ++ [b0, b1, b2, b3, b4, b5, b6, b7, b8, b9, b10, b11])
          = some (2, 2, [b8, b7, b6, b11, b10, b9, b2, b1, b0, b5, b4, b3]))
    ∧ (∀ d : Nat, ¬(d = 24 ∨ d = 32) → ∀ payload : List Nat,
        getScreenshot (tgaHeader d ++ payload) = none) := by
  constructor
  · intro b0 b1 b2 b3 b4 b5 b6 b7 b8 b9 b10 b11
    unfold getScreenshot
    simp only [tgaHeader, byteAt]
    norm_num
    rfl
  · intro d hd payload
    have hlen : ¬((tgaHeader d ++ payload).length < 17) := by
      simp [tgaHeader]
    have hb : byteAt (tgaHeader d ++ payload) 16 = d := by
      simp [byteAt, tgaHeader]
    unfold getScreenshot
    rw [if_neg hlen, hb, if_neg hd]

/-- Witness for C9 at concrete bytes: the 24 bit payload 1..12 decodes to
the row-flipped, channel-swapped buffer and a 16 bit header is
rejected. -/
theorem c9_decode_flip_swap_witness :
    getScreenshot (tgaHeader 24 ++ [1, 2, 3, 4, 5, 6, 7, 8, 9, 10, 11, 12])
      = some (2, 2, [9, 8, 7, 12, 11, 10, 3, 2, 1, 6, 5, 4])
    ∧ getScreenshot (tgaHeader 16 ++ [0, 0, 0, 0, 0, 0, 0, 0]) = none := by
  exact ⟨c9_decode_flip_swap.1 1 2 3 4 5 6 7 8 9 10 11 12,
    c9_decode_flip_swap.2 16 (by decide) [0, 0, 0, 0, 0, 0, 0, 0]⟩

/-- C10: invoking the hidden toggle in the unhide direction on a name
that does not carry the marker suffix computes no rename target and
leaves the directory listing entirely unchanged; the suffix is never
stripped from, or double-applied to, such a name. -/
theorem c10_unhide_without_marker_noop (files : List String) (name : String)
    (h : endsWithS name mohidden = false) :
    toggleHiddenNewName name true = none ∧
      toggleHidden files name true = files := by
  unfold toggleHidden toggleHiddenNewName
  simp [h]

/-- Witness for C10 at a concrete listing and name. -/
theorem c10_unhide_without_marker_noop_witness :
    toggleHiddenNewName "foo.tga" true = none ∧
      toggleHidden ["foo.tga", "x.tpc"] "foo.tga" true = ["foo.tga", "x.tpc"] :=
  c10_unhide_without_marker_noop ["foo.tga", "x.tpc"] "foo.tga" (by decide)

/-! ### Resolver lemmas: the winners fold is first-claim-wins -/

/-- The winners component of the per-file body is exactly a
first-claim-wins insertion of the candidate of the file, when one
exists. -/
theorem processFile_winners (s : String) (st : RState) (rel : String) :
    (processFile s st rel).winners =
      match winnerCand s rel with
      | some c => insertWinner st.winners c
      | none => st.winners := by
  unfold processFile winnerCand insertWinner
  by_cases h1 : endsWithS rel mohidden = true <;>
    by_cases h2 : lowerS (pathSuffixS (dropRightS rel 9)) ∈ textureExtensions <;>
    by_cases h3 : lowerS (pathSuffixS rel) ∈ textureExtensions <;>
    simp [h1, h2, h3, apply_ite, -List.any_eq_true]
  all_goals split
  all_goals
    try
      (rename_i hany
       rcases List.any_eq_true.mp hany with ⟨w, hw, hww⟩
       simp only [decide_eq_true_eq] at hww
       exact ⟨w.2.1, w.2.2, by rw [← hww]; exact hw⟩)
  all_goals
    (rename_i hany
     rw [Bool.not_eq_true] at hany
     have hf := List.any_eq_false.mp hany
     intro a a1 b hab
     have hcontra := hf (a, a1, b) hab
     simpa using hcontra)

/-- Folding the per-file body over a file list acts on winners as the
insertion fold of the candidates of the list. -/
theorem foldl_processFile_winners (s : String) (files : List String) (st : RState) :
    (files.foldl (processFile s) st).winners =
      (files.filterMap (winnerCand s)).foldl insertWinner st.winners := by
  induction files generalizing st with
  | nil => rfl
  | cons rel fs ih =>
      simp only [List.foldl_cons, List.filterMap_cons]
      cases h : winnerCand s rel with
      | none =>
          rw [ih]
          have hw : (processFile s st rel).winners = st.winners := by
            rw [processFile_winners, h]
          rw [hw]
      | some c =>
          rw [ih]
          have hw : (processFile s st rel).winners = insertWinner st.winners c := by
            rw [processFile_winners, h]
          rw [List.foldl_cons, hw]

/-- Folding whole sources acts on winners as the insertion fold of the
concatenated candidate lists. -/
theorem foldl_processSource_winners (l : List (String × List String)) (st : RState) :
    (l.foldl processSource st).winners =
      ((l.map sourceCands).flatten).foldl insertWinner st.winners := by
  induction l generalizing st with
  | nil => rfl
  | cons src rest ih =>
      simp only [List.foldl_cons, List.map_cons, List.flatten_cons]
      rw [ih, List.foldl_append]
      unfold processSource sourceCands
      rw [foldl_processFile_winners]

/-- The winners map of the scan is the first-claim-wins fold of all
candidates, sources before base. -/
theorem refreshScan_winners (sources : List (String × List String))
    (base : Option (String × List String)) :
    (refreshScan sources base).winners =
      (allCands sources base).foldl insertWinner [] := by
  unfold refreshScan allCands
  exact foldl_processSource_winners (sources ++ base.toList) ⟨[], []⟩

/-- Once a key is resolved, later insertions never change its entry. -/
theorem find?_foldl_insertWinner_some (k : String) (c : String × String × String)
    (cs : List (String × String × String)) (acc : List (String × String × String))
    (h : acc.find? (fun w => w.1 = k) = some c) :
    (cs.foldl insertWinner acc).find? (fun w => w.1 = k) = some c := by
  induction cs generalizing acc with
  | nil => exact h
  | cons x xs ih =>
      simp only [List.foldl_cons]
      apply ih
      unfold insertWinner
      split
      · exact h
      · rw [List.find?_append, h]
        rfl

/-- For an unresolved key, the insertion fold resolves it to the first
candidate carrying the key. -/
theorem find?_foldl_insertWinner_none (k : String)
    (cs : List (String × String × String)) (acc : List (String × String × String))
    (h : acc.find? (fun w => w.1 = k) = none) :
    (cs.foldl insertWinner acc).find? (fun w => w.1 = k) =
      cs.find? (fun w => w.1 = k) := by
  induction cs generalizing acc with
  | nil => exact h
  | cons x xs ih =>
      simp only [List.foldl_cons]
      by_cases hx : x.1 = k
      · have hany : acc.any (fun w => w.1 = x.1) = false := by
          rw [List.any_eq_false]
          intro w hw
          have := List.find?_eq_none.mp h w hw
          simp only [decide_eq_true_eq] at this ⊢
          rw [hx]
          exact this
        have hins : insertWinner acc x = acc ++ [x] := by
          unfold insertWinner
          rw [hany]
          rfl
        have h2 : (acc ++ [x]).find? (fun w => w.1 = k) = some x := by
          rw [List.find?_append, h]
          simp [hx]
        rw [hins, find?_foldl_insertWinner_some k x xs _ h2,
          List.find?_cons_of_pos _ (by simp [hx])]
      · rw [List.find?_cons_of_neg _ (by simp [hx])]
        cases hany : acc.any (fun w => w.1 = x.1) with
        | true =>
            have hins : insertWinner acc x = acc := by
              unfold insertWinner
              rw [hany]
              rfl
            rw [hins]
            exact ih acc h
        | false =>
            have hins : insertWinner acc x = acc ++ [x] := by
              unfold insertWinner
              rw [hany]
              rfl
            have h2 : (acc ++ [x]).find? (fun w => w.1 = k) = none := by
              rw [List.find?_append, h]
              simp [hx]
            rw [hins]
            exact ih _ h2

/-- The insertion fold keeps the keys of the winners map without
duplicates. -/
theorem nodupKeys_foldl_insertWinner (cs : List (String × String × String))
    (acc : List (String × String × String))
    (h : (acc.map (fun w => w.1)).Nodup) :
    (((cs.foldl insertWinner acc)).map (fun w => w.1)).Nodup := by
  induction cs generalizing acc with
  | nil => exact h
  | cons x xs ih =>
      simp only [List.foldl_cons]
      apply ih
      unfold insertWinner
      cases hany : acc.any (fun w => w.1 = x.1) with
      | true => simpa [hany] using h
      | false =>
          have hmem : x.1 ∉ acc.map (fun w => w.1) := by
            rw [List.any_eq_false] at hany
            intro hx
            rcases List.mem_map.mp hx with ⟨w, hw, hwx⟩
            have hne := hany w hw
            simp only [decide_eq_true_eq] at hne
            exact hne hwx
          simp only [hany, Bool.false_eq_true, if_false, List.map_append]
          simpa [List.nodup_append] using ⟨h, by simpa using hmem⟩

/-- A list with duplicate-free keys holds at most one entry per key. -/
theorem length_filter_key_le_one (ws : List (String × String × String)) (k : String)
    (h : (ws.map (fun w => w.1)).Nodup) :
    (ws.filter (fun w => w.1 = k)).length ≤ 1 := by
  induction ws with
  | nil => simp
  | cons x xs ih =>
      simp only [List.map_cons, List.nodup_cons] at h
      by_cases hx : x.1 = k
      · rw [List.filter_cons_of_pos (by simp [hx])]
        have hnil : xs.filter (fun w => w.1 = k) = [] := by
          rw [List.filter_eq_nil_iff]
          intro w hw
          simp only [decide_eq_true_eq]
          intro hwk
          exact h.1 (List.mem_map.mpr ⟨w, hw, by rw [hwk, hx]⟩)
        simp [hnil]
      · rw [List.filter_cons_of_neg (by simp [hx])]
        exact ih h.2

/-- C1: in the winners map of the scan, with sources ordered highest
priority first and the base scanned last, every case-folded relative
path resolves to the first candidate claiming it in that order; the map
never holds two entries for one key, so later claims are absent, and the
base can only contribute keys no source claimed; at the concrete input,
source A (priority 1) with foo/Bar.tpc beats source B (priority 2) with
foo/bar.tpc, whose entry does not appear. -/
theorem c1_first_source_claims_path :
    (∀ (sources : List (String × List String)) (base : Option (String × List String))
        (k : String),
        (refreshScan sources base).winners.find? (fun w => w.1 = k)
            = (allCands sources base).find? (fun w => w.1 = k)
          ∧ ((refreshScan sources base).winners.filter (fun w => w.1 = k)).length ≤ 1)
    ∧ (refreshScan [("Mod: A", ["foo/Bar.tpc"]), ("Mod: B", ["foo/bar.tpc"])] none).winners
        = [("foo/bar.tpc", "Mod: A", "foo/Bar.tpc")] := by
  refine ⟨fun sources base k => ⟨?_, ?_⟩, by decide⟩
  · rw [refreshScan_winners]
    exact find?_foldl_insertWinner_none k _ [] rfl
  · rw [refreshScan_winners]
    exact length_filter_key_le_one _ k
      (nodupKeys_foldl_insertWinner _ [] (by simp))

/-! ### Resolver lemmas: hidden entries and winner provenance -/

/-- The hidden component of the per-file body appends exactly the hidden
candidate of the file, when one exists. -/
theorem processFile_hidden (s : String) (st : RState) (rel : String) :
    (processFile s st rel).hidden = st.hidden ++ (hiddenCand s rel).toList := by
  unfold processFile hiddenCand
  by_cases h1 : endsWithS rel mohidden = true <;>
    by_cases h2 : lowerS (pathSuffixS (dropRightS rel 9)) ∈ textureExtensions <;>
    by_cases h3 : lowerS (pathSuffixS rel) ∈ textureExtensions <;>
    simp [h1, h2, h3, apply_ite, -List.any_eq_true]

/-- Folding the per-file body over a file list appends exactly the
hidden candidates of the list, in order. -/
theorem foldl_processFile_hidden (s : String) (files : List String) (st : RState) :
    (files.foldl (processFile s) st).hidden =
      st.hidden ++ files.filterMap (hiddenCand s) := by
  induction files generalizing st with
  | nil => simp
  | cons f fs ih =>
      simp only [List.foldl_cons, List.filterMap_cons]
      cases h : hiddenCand s f with
      | none =>
          have hp := processFile_hidden s st f
          rw [h] at hp
          simp only [Option.toList_none, List.append_nil] at hp
          rw [ih, hp]
      | some c =>
          have hp := processFile_hidden s st f
          rw [h] at hp
          rw [ih, hp]
          simp

/-- Folding whole sources appends their hidden candidate lists in
order. -/
theorem foldl_processSource_hidden (l : List (String × List String)) (st : RState) :
    (l.foldl processSource st).hidden =
      st.hidden ++ (l.map (fun src => src.2.filterMap (hiddenCand src.1))).flatten := by
  induction l generalizing st with
  | nil => simp
  | cons src rest ih =>
      simp only [List.foldl_cons, List.map_cons, List.flatten_cons]
      rw [ih]
      unfold processSource
      rw [foldl_processFile_hidden]
      simp

/-- The hidden list of the scan is the concatenation of the hidden
candidates of all sources, sources before base, in scan order. -/
theorem refreshScan_hidden (sources : List (String × List String))
    (base : Option (String × List String)) :
    (refreshScan sources base).hidden =
      (((sources ++ base.toList)).map
        (fun src => src.2.filterMap (hiddenCand src.1))).flatten := by
  unfold refreshScan
  rw [foldl_processSource_hidden]
  rfl

/-- A produced winner candidate is the case-folded key with the original
path of a file that is not marker suffixed. -/
theorem winnerCand_eq_some (s rel : String) (c : String × String × String)
    (h : winnerCand s rel = some c) :
    c = (lowerS rel, s, rel) ∧ endsWithS rel mohidden = false := by
  unfold winnerCand at h
  cases hb : endsWithS rel mohidden with
  | true => simp [hb] at h
  | false =>
      simp [hb] at h
      exact ⟨h.2.symm, rfl⟩

/-- Every entry of the insertion fold comes from the accumulator or from
the candidate list. -/
theorem mem_foldl_insertWinner (cs : List (String × String × String))
    (acc : List (String × String × String)) (w : String × String × String)
    (h : w ∈ cs.foldl insertWinner acc) : w ∈ acc ∨ w ∈ cs := by
  induction cs generalizing acc with
  | nil => exact Or.inl h
  | cons x xs ih =>
      simp only [List.foldl_cons] at h
      rcases ih _ h with h1 | h1
      · unfold insertWinner at h1
        split at h1
        · exact Or.inl h1
        · rcases List.mem_append.mp h1 with h2 | h2
          · exact Or.inl h2
          · exact Or.inr (by simpa using Or.inl (by simpa using h2))
      · exact Or.inr (List.mem_cons_of_mem x h1)

/-- Every winner of the scan is a candidate of one of the scanned
sources. -/
theorem mem_allCands_of_mem_winners (sources : List (String × List String))
    (base : Option (String × List String)) (w : String × String × String)
    (h : w ∈ (refreshScan sources base).winners) : w ∈ allCands sources base := by
  rw [refreshScan_winners] at h
  rcases mem_foldl_insertWinner _ [] w h with h1 | h1
  · cases h1
  · exact h1

/-- No winner path of the scan is marker suffixed. -/
theorem winners_unmarked_scan (sources : List (String × List String))
    (base : Option (String × List String)) :
    ∀ w ∈ (refreshScan sources base).winners, endsWithS w.2.2 mohidden = false := by
  intro w hw
  have h1 := mem_allCands_of_mem_winners sources base w hw
  unfold allCands at h1
  rcases List.mem_flatten.mp h1 with ⟨cl, hcl, hwcl⟩
  rcases List.mem_map.mp hcl with ⟨src, _, hsrc⟩
  subst hsrc
  unfold sourceCands at hwcl
  rcases List.mem_filterMap.mp hwcl with ⟨rel, _, hcand⟩
  rcases winnerCand_eq_some src.1 rel w hcand with ⟨hc, hmark⟩
  rw [hc]
  exact hmark

/-- C6 (amended): a marker-suffixed file is recorded as a hidden entry
exactly when its underlying extension is a texture extension, and the
recorded path keeps the marker (the un-suffixed path with the marker
re-appended); no hidden file ever enters the winners map, hence no
member of any conflict group is marker suffixed. The original claim
fails for marker-suffixed files with non-texture underlying extensions,
which are skipped entirely. -/
theorem c6_hidden_never_compete (sources : List (String × List String))
    (base : Option (String × List String)) (src : String × List String)
    (hsrc : src ∈ sources ++ base.toList) (rel : String) (hrel : rel ∈ src.2)
    (h1 : endsWithS rel mohidden = true)
    (h2 : lowerS (pathSuffixS (dropRightS rel 9)) ∈ textureExtensions) :
    (src.1, dropRightS rel 9 ++ mohidden) ∈ (refreshScan sources base).hidden
    ∧ (∀ w ∈ (refreshScan sources base).winners, endsWithS w.2.2 mohidden = false)
    ∧ (∀ b : String, ∀ w ∈ groupMembers (refreshScan sources base).winners b,
        endsWithS w.2.2 mohidden = false) := by
  refine ⟨?_, winners_unmarked_scan sources base, ?_⟩
  · rw [refreshScan_hidden]
    refine List.mem_flatten.mpr ⟨src.2.filterMap (hiddenCand src.1),
      List.mem_map.mpr ⟨src, hsrc, rfl⟩, ?_⟩
    refine List.mem_filterMap.mpr ⟨rel, hrel, ?_⟩
    unfold hiddenCand
    rw [if_pos ⟨h1, h2⟩]
  · intro b w hw
    exact winners_unmarked_scan sources base w (List.mem_of_mem_filter hw)

/-- Witness for C6 at a concrete scan: the qualifying hidden file of the
single source is recorded and the winners map of the scan is free of
marker-suffixed paths. -/
theorem c6_hidden_never_compete_witness :
    ("Mod: A", dropRightS "foo.tga.mohidden" 9 ++ mohidden)
        ∈ (refreshScan [("Mod: A", ["foo.tga.mohidden", "bar.tpc"])] none).hidden
    ∧ (∀ w ∈ (refreshScan [("Mod: A", ["foo.tga.mohidden", "bar.tpc"])] none).winners,
        endsWithS w.2.2 mohidden = false) := by
  have h := c6_hidden_never_compete [("Mod: A", ["foo.tga.mohidden", "bar.tpc"])] none
    ("Mod: A", ["foo.tga.mohidden", "bar.tpc"]) (by decide) "foo.tga.mohidden"
    (by decide) (by decide) (by decide)
  exact ⟨h.1, h.2.1⟩

/-- C6 counterexample: a marker-suffixed file whose underlying extension
is not a texture extension is not recorded at all, contradicting the
claim that every marker-suffixed file is recorded as a hidden entry
regardless of its underlying extension. -/
theorem c6_counterexample_txt_not_recorded :
    (refreshScan [("Mod: A", ["foo.txt.mohidden"])] none).hidden = []
    ∧ (refreshScan [("Mod: A", ["foo.txt.mohidden"])] none).winners = [] := by
  decide


/-! ### Conflict flag classification (C7) -/

/-- Two distinct members force length at least two. -/
theorem one_lt_length_of_mem_ne {α : Type} {l : List α} {a b : α}
    (ha : a ∈ l) (hb : b ∈ l) (hne : a ≠ b) : 1 < l.length := by
  cases l with
  | nil => cases ha
  | cons x xs =>
      cases xs with
      | nil =>
          have ha1 : a = x := by simpa using ha
          have hb1 : b = x := by simpa using hb
          exact absurd (ha1.trans hb1.symm) hne
      | cons y ys => simp only [List.length_cons]; omega

/-- C7: grouping winners by case-folded base key, a group holding both
the tpc and the txi extension is flagged major (the highest severity); a
group holding tpc and tga but not txi is flagged minor; every other
group with more than one distinct extension is entered with the plain
(lowest) flag; and a group with exactly one distinct extension gets no
conflict_flags entry at all. -/
theorem c7_conflict_flag_classes (ws : List (String × String × String)) (b : String) :
    (("tpc" ∈ extSet ws b → "txi" ∈ extSet ws b →
        conflictFlag ws b = some ConflictFlag.major)
      ∧ ("tpc" ∈ extSet ws b → "tga" ∈ extSet ws b → "txi" ∉ extSet ws b →
        conflictFlag ws b = some ConflictFlag.minor)
      ∧ (1 < (extSet ws b).length →
          ¬("tpc" ∈ extSet ws b ∧ "txi" ∈ extSet ws b) →
          ¬("tpc" ∈ extSet ws b ∧ "tga" ∈ extSet ws b) →
        conflictFlag ws b = some ConflictFlag.plain)
      ∧ ((extSet ws b).length = 1 → conflictFlag ws b = none)) := by
  refine ⟨?_, ?_, ?_, ?_⟩
  · intro h1 h2
    unfold conflictFlag
    rw [if_pos (one_lt_length_of_mem_ne h1 h2 (by decide)),
      if_pos ⟨h1, h2⟩]
  · intro h1 h2 h3
    unfold conflictFlag
    rw [if_pos (one_lt_length_of_mem_ne h1 h2 (by decide)),
      if_neg (fun hc => h3 hc.2), if_pos ⟨h1, h2⟩]
  · intro hlen hmaj hmin
    unfold conflictFlag
    rw [if_pos hlen, if_neg hmaj, if_neg hmin]
  · intro hlen
    unfold conflictFlag
    rw [if_neg (by omega)]

/-- Witness for C7 at concrete winner lists: tpc plus txi is major, tpc
plus tga is minor, a lone tpc forms no group. -/
theorem c7_conflict_flag_classes_witness :
    conflictFlag [("foo/bar.tpc", "Mod: A", "foo/bar.tpc"),
        ("foo/bar.txi", "Mod: A", "foo/bar.txi")] "foo/bar"
      = some ConflictFlag.major
    ∧ conflictFlag [("foo/bar.tpc", "Mod: A", "foo/bar.tpc"),
        ("foo/bar.tga", "Mod: B", "foo/bar.tga")] "foo/bar"
      = some ConflictFlag.minor
    ∧ conflictFlag [("foo/bar.tpc", "Mod: A", "foo/bar.tpc")] "foo/bar" = none := by
  refine ⟨(c7_conflict_flag_classes _ "foo/bar").1 (by decide) (by decide),
    (c7_conflict_flag_classes _ "foo/bar").2.1 (by decide) (by decide) (by decide),
    (c7_conflict_flag_classes _ "foo/bar").2.2.2 (by decide)⟩


/-! ### Ordering of the displayed listing (C8) -/

/-- Membership through stable insertion. -/
theorem mem_insertSorted {α : Type} (le : α → α → Bool) (x : α) (l : List α) (a : α) :
    a ∈ insertSorted le x l ↔ a = x ∨ a ∈ l := by
  induction l with
  | nil => simp [insertSorted]
  | cons y ys ih =>
      unfold insertSorted
      split
      · simp [List.mem_cons]
      · simp only [List.mem_cons, ih]
        tauto

/-- Stable insertion preserves sortedness for a total transitive
comparison. -/
theorem pairwise_insertSorted {α : Type} (le : α → α → Bool)
    (htot : ∀ a b, le a b = true ∨ le b a = true)
    (htrans : ∀ a b c, le a b = true → le b c = true → le a c = true)
    (x : α) (l : List α) (h : l.Pairwise (fun a b => le a b = true)) :
    (insertSorted le x l).Pairwise (fun a b => le a b = true) := by
  induction l with
  | nil => simp [insertSorted]
  | cons y ys ih =>
      rcases List.pairwise_cons.mp h with ⟨hy, hys⟩
      unfold insertSorted
      split
      · rename_i hcond
        rw [Bool.and_eq_true, Bool.not_eq_true'] at hcond
        refine List.pairwise_cons.mpr ⟨?_, h⟩
        intro b hb
        rcases List.mem_cons.mp hb with rfl | hb
        · exact hcond.1
        · exact htrans x y b hcond.1 (hy b hb)
      · rename_i hcond
        have hyx : le y x = true := by
          by_cases hxyt : le y x = true
          · exact hxyt
          · rcases htot x y with hxy | hyx2
            · rw [Bool.not_eq_true] at hxyt
              have hand : (le x y && !le y x) = true := by
                rw [Bool.and_eq_true, Bool.not_eq_true']
                exact ⟨hxy, hxyt⟩
              exact absurd hand hcond
            · exact hyx2
        refine List.pairwise_cons.mpr ⟨?_, ih hys⟩
        intro b hb
        rcases (mem_insertSorted le x ys b).mp hb with rfl | hb
        · exact hyx
        · exact hy b hb

/-- Membership through the stable sort fold. -/
theorem mem_foldl_insertSorted {α : Type} (le : α → α → Bool) (l acc : List α) (a : α) :
    a ∈ l.foldl (fun acc x => insertSorted le x acc) acc ↔ a ∈ acc ∨ a ∈ l := by
  induction l generalizing acc with
  | nil => simp
  | cons x xs ih =>
      simp only [List.foldl_cons]
      rw [ih, mem_insertSorted]
      simp only [List.mem_cons]
      tauto

/-- Membership through the stable sort. -/
theorem mem_sortByStable {α : Type} (le : α → α → Bool) (l : List α) (a : α) :
    a ∈ sortByStable le l ↔ a ∈ l := by
  unfold sortByStable
  rw [mem_foldl_insertSorted]
  simp

/-- The stable sort fold is sorted. -/
theorem pairwise_foldl_insertSorted {α : Type} (le : α → α → Bool)
    (htot : ∀ a b, le a b = true ∨ le b a = true)
    (htrans : ∀ a b c, le a b = true → le b c = true → le a c = true)
    (l acc : List α) (hacc : acc.Pairwise (fun a b => le a b = true)) :
    (l.foldl (fun acc x => insertSorted le x acc) acc).Pairwise
      (fun a b => le a b = true) := by
  induction l generalizing acc with
  | nil => exact hacc
  | cons x xs ih =>
      simp only [List.foldl_cons]
      exact ih _ (pairwise_insertSorted le htot htrans x acc hacc)

/-- The stable sort is sorted. -/
theorem pairwise_sortByStable {α : Type} (le : α → α → Bool)
    (htot : ∀ a b, le a b = true ∨ le b a = true)
    (htrans : ∀ a b c, le a b = true → le b c = true → le a c = true)
    (l : List α) :
    (sortByStable le l).Pairwise (fun a b => le a b = true) :=
  pairwise_foldl_insertSorted le htot htrans l [] (by simp)

/-- The code point comparison is total. -/
theorem strLeChars_total : ∀ l1 l2 : List Char,
    strLeChars l1 l2 = true ∨ strLeChars l2 l1 = true := by
  intro l1
  induction l1 with
  | nil => intro l2; left; rfl
  | cons a as ih =>
      intro l2
      cases l2 with
      | nil => right; rfl
      | cons b bs =>
          unfold strLeChars
          by_cases hab : a.toNat = b.toNat
          · rw [if_pos hab, if_pos hab.symm]
            exact ih bs
          · rw [if_neg hab, if_neg (fun h => hab h.symm)]
            rcases Nat.lt_or_ge a.toNat b.toNat with h | h
            · left; simpa using h
            · right
              simp only [decide_eq_true_eq]
              omega

/-- The code point comparison is transitive. -/
theorem strLeChars_trans : ∀ l1 l2 l3 : List Char,
    strLeChars l1 l2 = true → strLeChars l2 l3 = true → strLeChars l1 l3 = true := by
  intro l1
  induction l1 with
  | nil => intro l2 l3 _ _; rfl
  | cons a as ih =>
      intro l2 l3 h12 h23
      cases l2 with
      | nil => exact absurd h12 (by simp [strLeChars])
      | cons b bs =>
          cases l3 with
          | nil => exact absurd h23 (by simp [strLeChars])
          | cons c cs =>
              unfold strLeChars at h12 h23 ⊢
              by_cases hab : a.toNat = b.toNat <;> by_cases hbc : b.toNat = c.toNat
              · rw [if_pos hab] at h12
                rw [if_pos hbc] at h23
                rw [if_pos (hab.trans hbc)]
                exact ih bs cs h12 h23
              · rw [if_pos hab] at h12
                rw [if_neg hbc] at h23
                rw [if_neg (fun h => hbc (hab ▸ h)), hab]
                exact h23
              · rw [if_neg hab] at h12
                rw [if_pos hbc] at h23
                rw [if_neg (fun h => hab (hbc ▸ h)), ← hbc]
                exact h12
              · rw [if_neg hab] at h12
                rw [if_neg hbc] at h23
                simp only [decide_eq_true_eq] at h12 h23
                rw [if_neg (by omega)]
                simp only [decide_eq_true_eq]
                omega

/-- The row comparison by case-folded relative path is total. -/
theorem relLeE_total : ∀ a b : TexEntry, relLeE a b = true ∨ relLeE b a = true := by
  intro a b
  unfold relLeE strLe
  exact strLeChars_total _ _

/-- The row comparison by case-folded relative path is transitive. -/
theorem relLeE_trans : ∀ a b c : TexEntry,
    relLeE a b = true → relLeE b c = true → relLeE a c = true := by
  intro a b c hab hbc
  unfold relLeE strLe at hab hbc ⊢
  exact strLeChars_trans _ _ _ hab hbc

/-- A row of the conflict partition carries the major or the minor flag
and is not hidden. -/
theorem flag_of_mem_conflictEntries (st : RState) (e : TexEntry)
    (he : e ∈ conflictEntriesOf st) :
    (rowFlagOf (itemsOf st.winners) e = RowFlag.major
      ∨ rowFlagOf (itemsOf st.winners) e = RowFlag.minor) ∧ e.hidden = false := by
  have hm := (mem_sortByStable _ _ e).mp he
  rcases List.mem_filter.mp hm with ⟨_, hcond⟩
  rw [Bool.and_eq_true] at hcond
  obtain ⟨hbr, hh⟩ := hcond
  rw [Bool.not_eq_true'] at hh
  refine ⟨?_, hh⟩
  unfold rowFlagOf
  unfold hasBrush at hbr
  cases hcf : conflictFlag (itemsOf st.winners) e.base with
  | none => rw [hcf] at hbr; simp at hbr
  | some f =>
      cases f with
      | major => left; simp [hh, hcf]
      | minor => right; simp [hh, hcf]
      | plain => rw [hcf] at hbr; simp at hbr

/-- A row of the non-conflicted partition carries the plain flag and is
not hidden. -/
theorem flag_of_mem_normalEntries (st : RState) (e : TexEntry)
    (he : e ∈ normalEntriesOf st) :
    rowFlagOf (itemsOf st.winners) e = RowFlag.plain ∧ e.hidden = false := by
  have hm := (mem_sortByStable _ _ e).mp he
  rcases List.mem_filter.mp hm with ⟨_, hcond⟩
  rw [Bool.and_eq_true] at hcond
  obtain ⟨hbr, hh⟩ := hcond
  rw [Bool.not_eq_true'] at hbr
  rw [Bool.not_eq_true'] at hh
  refine ⟨?_, hh⟩
  unfold rowFlagOf
  unfold hasBrush at hbr
  cases hcf : conflictFlag (itemsOf st.winners) e.base with
  | none => simp [hh, hcf]
  | some f =>
      cases f with
      | major => rw [hcf] at hbr; simp at hbr
      | minor => rw [hcf] at hbr; simp at hbr
      | plain => simp [hh, hcf]

/-- A row of the hidden partition carries the dot flag and is hidden. -/
theorem flag_of_mem_hiddenEntries (st : RState) (e : TexEntry)
    (he : e ∈ hiddenEntriesOf st) :
    rowFlagOf (itemsOf st.winners) e = RowFlag.dot ∧ e.hidden = true := by
  have hm := (mem_sortByStable _ _ e).mp he
  rcases List.mem_filter.mp hm with ⟨_, hcond⟩
  refine ⟨?_, hcond⟩
  unfold rowFlagOf
  simp [hcond]

/-- A row is hidden exactly when its flag is the dot. -/
theorem hidden_iff_dot_flag (items : List (String × String × String)) (e : TexEntry) :
    e.hidden = true ↔ rowFlagOf items e = RowFlag.dot := by
  unfold rowFlagOf
  cases hh : e.hidden with
  | true => simp
  | false =>
      simp only [Bool.false_eq_true, if_false]
      constructor
      · intro h; cases h
      · intro h
        cases hcf : conflictFlag items e.base with
        | none => rw [hcf] at h; simp at h
        | some f => cases f <;> rw [hcf] at h <;> simp at h

/-- C8 (amended): in the displayed listing, after the descending
weight-keyed stable re-sort of the tree, rows appear in non-increasing
flag weight (so conflict rows come first, then hidden rows, then
non-conflicted rows), and rows of equal flag appear in ascending order
of case-folded relative path; a row is hidden exactly when it carries
the dot flag. -/
theorem c8_listing_order (sources : List (String × List String))
    (base : Option (String × List String)) :
    ((listingOf sources base).Pairwise (fun a b =>
        rowWeight (rowFlagOf (itemsOf (refreshScan sources base).winners) b)
            ≤ rowWeight (rowFlagOf (itemsOf (refreshScan sources base).winners) a)
          ∧ (rowFlagOf (itemsOf (refreshScan sources base).winners) a
                = rowFlagOf (itemsOf (refreshScan sources base).winners) b
              → strLe (lowerS a.rel) (lowerS b.rel) = true)))
    ∧ ∀ e ∈ listingOf sources base,
        (e.hidden = true
          ↔ rowFlagOf (itemsOf (refreshScan sources base).winners) e = RowFlag.dot) := by
  refine ⟨?_, fun e _ => hidden_iff_dot_flag _ e⟩
  set st := refreshScan sources base with hst
  set items := itemsOf st.winners with hitems
  have hCS : (conflictEntriesOf st).Pairwise (fun a b => relLeE a b = true) :=
    pairwise_sortByStable relLeE relLeE_total relLeE_trans _
  have hNS : (normalEntriesOf st).Pairwise (fun a b => relLeE a b = true) :=
    pairwise_sortByStable relLeE relLeE_total relLeE_trans _
  have hHS : (hiddenEntriesOf st).Pairwise (fun a b => relLeE a b = true) :=
    pairwise_sortByStable relLeE relLeE_total relLeE_trans _
  have hCSmem := flag_of_mem_conflictEntries st
  have hNSmem := flag_of_mem_normalEntries st
  have hHSmem := flag_of_mem_hiddenEntries st
  have hflagmem : ∀ (c : RowFlag) (e : TexEntry),
      e ∈ (rowsOf st).filter (fun e => rowFlagOf items e = c) →
      rowFlagOf items e = c := by
    intro c e he
    have := (List.mem_filter.mp he).2
    simpa using this
  have hsorted : ∀ c : RowFlag,
      ((rowsOf st).filter (fun e => rowFlagOf items e = c)).Pairwise
        (fun a b => relLeE a b = true) := by
    intro c
    unfold rowsOf
    rw [List.filter_append, List.filter_append]
    have hfCS := List.Pairwise.filter (R := fun a b => relLeE a b = true)
      (fun e => decide (rowFlagOf items e = c)) hCS
    have hfNS := List.Pairwise.filter (R := fun a b => relLeE a b = true)
      (fun e => decide (rowFlagOf items e = c)) hNS
    have hfHS := List.Pairwise.filter (R := fun a b => relLeE a b = true)
      (fun e => decide (rowFlagOf items e = c)) hHS
    have hempty2 : ∀ l1 l2 l3 : List TexEntry,
        l1.Pairwise (fun a b => relLeE a b = true) →
        l2.Pairwise (fun a b => relLeE a b = true) →
        l3.Pairwise (fun a b => relLeE a b = true) →
        (l2 = [] ∧ l3 = []) ∨ (l1 = [] ∧ l3 = []) ∨ (l1 = [] ∧ l2 = []) →
        (l1 ++ l2 ++ l3).Pairwise (fun a b => relLeE a b = true) := by
      intro l1 l2 l3 p1 p2 p3 hc
      rcases hc with ⟨h2, h3⟩ | ⟨h1, h3⟩ | ⟨h1, h2⟩ <;> subst_vars <;> simp_all
    cases c with
    | major =>
        apply hempty2 _ _ _ hfCS hfNS hfHS
        left
        constructor
        · rw [List.filter_eq_nil_iff]
          intro e he
          simp [(hNSmem e he).1]
        · rw [List.filter_eq_nil_iff]
          intro e he
          simp [(hHSmem e he).1]
    | minor =>
        apply hempty2 _ _ _ hfCS hfNS hfHS
        left
        constructor
        · rw [List.filter_eq_nil_iff]
          intro e he
          simp [(hNSmem e he).1]
        · rw [List.filter_eq_nil_iff]
          intro e he
          simp [(hHSmem e he).1]
    | dot =>
        apply hempty2 _ _ _ hfCS hfNS hfHS
        right; right
        constructor
        · rw [List.filter_eq_nil_iff]
          intro e he
          rcases (hCSmem e he).1 with h | h <;> simp [h]
        · rw [List.filter_eq_nil_iff]
          intro e he
          simp [(hNSmem e he).1]
    | plain =>
        apply hempty2 _ _ _ hfCS hfNS hfHS
        right; left
        constructor
        · rw [List.filter_eq_nil_iff]
          intro e he
          rcases (hCSmem e he).1 with h | h <;> simp [h]
        · rw [List.filter_eq_nil_iff]
          intro e he
          simp [(hHSmem e he).1]
  have hblock : ∀ c : RowFlag,
      ((rowsOf st).filter (fun e => rowFlagOf items e = c)).Pairwise
        (fun a b =>
          rowWeight (rowFlagOf items b) ≤ rowWeight (rowFlagOf items a)
            ∧ (rowFlagOf items a = rowFlagOf items b → strLe (lowerS a.rel) (lowerS b.rel) = true)) := by
    intro c
    refine List.Pairwise.imp_of_mem ?_ (hsorted c)
    intro a b ha hb hle
    rw [hflagmem c a ha, hflagmem c b hb]
    refine ⟨le_refl _, fun _ => ?_⟩
    unfold relLeE at hle
    exact hle
  have hcross : ∀ c1 c2 : RowFlag, rowWeight c2 ≤ rowWeight c1 → c1 ≠ c2 →
      ∀ a ∈ (rowsOf st).filter (fun e => rowFlagOf items e = c1),
      ∀ b ∈ (rowsOf st).filter (fun e => rowFlagOf items e = c2),
        rowWeight (rowFlagOf items b) ≤ rowWeight (rowFlagOf items a)
          ∧ (rowFlagOf items a = rowFlagOf items b → strLe (lowerS a.rel) (lowerS b.rel) = true) := by
    intro c1 c2 hw hne a ha b hb
    rw [hflagmem c1 a ha, hflagmem c2 b hb]
    exact ⟨hw, fun h => absurd h hne⟩
  show ((rowsOf st).filter (fun e => rowFlagOf items e = RowFlag.major)
      ++ (rowsOf st).filter (fun e => rowFlagOf items e = RowFlag.minor)
      ++ (rowsOf st).filter (fun e => rowFlagOf items e = RowFlag.dot)
      ++ (rowsOf st).filter (fun e => rowFlagOf items e = RowFlag.plain)).Pairwise _
  rw [List.append_assoc, List.append_assoc, List.pairwise_append]
  refine ⟨hblock RowFlag.major, ?_, ?_⟩
  · rw [List.pairwise_append]
    refine ⟨hblock RowFlag.minor, ?_, ?_⟩
    · rw [List.pairwise_append]
      refine ⟨hblock RowFlag.dot, hblock RowFlag.plain,
        hcross RowFlag.dot RowFlag.plain (by simp [rowWeight]) (by decide)⟩
    · intro a ha b hb
      rcases List.mem_append.mp hb with hb | hb
      · exact hcross RowFlag.minor RowFlag.dot (by simp [rowWeight]) (by decide) a ha b hb
      · exact hcross RowFlag.minor RowFlag.plain (by simp [rowWeight]) (by decide) a ha b hb
  · intro a ha b hb
    rcases List.mem_append.mp hb with hb | hb
    · exact hcross RowFlag.major RowFlag.minor (by simp [rowWeight]) (by decide) a ha b hb
    · rcases List.mem_append.mp hb with hb | hb
      · exact hcross RowFlag.major RowFlag.dot (by simp [rowWeight]) (by decide) a ha b hb
      · exact hcross RowFlag.major RowFlag.plain (by simp [rowWeight]) (by decide) a ha b hb

/-- Witness for C8 at a concrete scan with one conflict pair, one plain
winner and one hidden file. -/
theorem c8_listing_order_witness :
    ((listingOf [("Mod: A", ["foo/bar.tpc", "foo/bar.txi", "aaa.tga", "zzz.tga.mohidden"])]
        none).Pairwise (fun a b =>
        rowWeight (rowFlagOf (itemsOf (refreshScan
            [("Mod: A", ["foo/bar.tpc", "foo/bar.txi", "aaa.tga", "zzz.tga.mohidden"])]
            none).winners) b)
            ≤ rowWeight (rowFlagOf (itemsOf (refreshScan
              [("Mod: A", ["foo/bar.tpc", "foo/bar.txi", "aaa.tga", "zzz.tga.mohidden"])]
              none).winners) a)
          ∧ (rowFlagOf (itemsOf (refreshScan
                [("Mod: A", ["foo/bar.tpc", "foo/bar.txi", "aaa.tga", "zzz.tga.mohidden"])]
                none).winners) a
              = rowFlagOf (itemsOf (refreshScan
                  [("Mod: A", ["foo/bar.tpc", "foo/bar.txi", "aaa.tga", "zzz.tga.mohidden"])]
                  none).winners) b
              → strLe (lowerS a.rel) (lowerS b.rel) = true))) :=
  (c8_listing_order
    [("Mod: A", ["foo/bar.tpc", "foo/bar.txi", "aaa.tga", "zzz.tga.mohidden"])] none).1

/-- C8 counterexample: with winners foo/bar.tpc and foo/bar.txi (a major
conflict group), the plain winner aaa.tga and the hidden file
zzz.tga.mohidden, the displayed listing places the hidden row before the
non-conflicted row, refuting the claimed ordering in which every
non-conflicted entry sorts before every hidden entry. -/
theorem c8_counterexample_hidden_before_normal :
    ((listingOf [("Mod: A", ["foo/bar.tpc", "foo/bar.txi", "aaa.tga", "zzz.tga.mohidden"])]
        none).map (fun e => e.rel)
      = ["foo/bar.tpc", "foo/bar.txi", "zzz.tga.mohidden", "aaa.tga"])
    ∧ ((listingOf [("Mod: A", ["foo/bar.tpc", "foo/bar.txi", "aaa.tga", "zzz.tga.mohidden"])]
        none).getD 2 default).hidden = true
    ∧ ((listingOf [("Mod: A", ["foo/bar.tpc", "foo/bar.txi", "aaa.tga", "zzz.tga.mohidden"])]
        none).getD 3 default).hidden = false := by
  decide


/-! ### Checker and fixer lemmas (C2-C5) -/

/-- Ground evaluation fact about the override name. -/
theorem lowerS_override : lowerS "override" = "override" := by decide

/-- Ground evaluation of the tslpatchdata name. -/
theorem lowerS_tslpatchdata : lowerS "tslpatchdata" = "tslpatchdata" := by decide

/-- A forest of plain files holds no directory. -/
theorem iterDirs_files (fs : List FileTree) (hf : ∀ f ∈ fs, isDirB f = false) :
    iterDirs fs = [] := by
  induction fs with
  | nil => rfl
  | cons f fs ih =>
      cases f with
      | file n =>
          simp only [iterDirs, iterDirsT, List.nil_append]
          exact ih (fun g hg => hf g (List.mem_cons_of_mem _ hg))
      | dir n cs =>
          have := hf (FileTree.dir n cs) (List.mem_cons_self _ _)
          simp [isDirB] at this

/-- A forest of plain files contributes no parent-paired directory. -/
theorem dirsWithParent_files (p : String) (fs : List FileTree)
    (hf : ∀ f ∈ fs, isDirB f = false) :
    dirsWithParent p fs = [] := by
  induction fs with
  | nil => rfl
  | cons f fs ih =>
      cases f with
      | file n =>
          simp only [dirsWithParent, dirsWithParentT, List.nil_append]
          exact ih (fun g hg => hf g (List.mem_cons_of_mem _ hg))
      | dir n cs =>
          have := hf (FileTree.dir n cs) (List.mem_cons_self _ _)
          simp [isDirB] at this

/-- The directory list of a single directory of plain files. -/
theorem iterDirs_single (n : String) (fs : List FileTree)
    (hf : ∀ f ∈ fs, isDirB f = false) :
    iterDirs [FileTree.dir n fs] = [FileTree.dir n fs] := by
  simp [iterDirs, iterDirsT, iterDirs_files fs hf]

/-- A top-level directory occurs in the preorder directory list. -/
theorem mem_iterDirs_of_mem_top (t : List FileTree) (e : FileTree)
    (he : e ∈ t) (hd : isDirB e = true) : e ∈ iterDirs t := by
  induction t with
  | nil => cases he
  | cons x xs ih =>
      rcases List.mem_cons.mp he with rfl | he2
      · cases e with
        | file n => simp [isDirB] at hd
        | dir n cs => simp [iterDirs, iterDirsT]
      · cases x with
        | file n => simpa [iterDirs, iterDirsT] using ih he2
        | dir n cs =>
            simp only [iterDirs, iterDirsT, List.cons_append, List.mem_cons,
              List.mem_append]
            exact Or.inr (Or.inr (ih he2))

/-- The canonical key names are already lower case. -/
theorem lowerS_of_mem_validMapKeys (k : String) (hk : k ∈ validMapKeys) :
    lowerS k = k := by
  fin_cases hk <;> decide

/-- C2 (amended): when rules 1 to 5 do not apply and some root-level
directory bears a canonical name, dataLooksValid returns VALID; however
data is both a canonical name and the restricted name, so a tree whose
sole top-level entry is a directory named data containing a bif file
falls to rule 2 and is INVALID, not VALID. -/
theorem c2_canonical_root_valid :
    (∀ t : List FileTree,
        rule1 t = false → rule2 t = false → rule34 t = false →
        rule5Aux false t = false →
        (∃ e, e ∈ t ∧ isDirB e = true ∧ lowerS (nameOf e) ∈ validMapKeys) →
        dataLooksValid t = CheckReturn.VALID)
    ∧ dataLooksValid [FileTree.dir "data" [FileTree.file "a.bif"]]
        = CheckReturn.INVALID := by
  constructor
  · rintro t h1 h2 h34 h5 ⟨e, het, hed, hek⟩
    have hmem : e ∈ findDirsNamed t (lowerS (nameOf e)) := by
      refine List.mem_filter.mpr ⟨mem_iterDirs_of_mem_top t e het hed, ?_⟩
      simp [lowerS_of_mem_validMapKeys _ hek]
    have h6 : rule6 t = true := by
      unfold rule6
      rw [List.any_eq_true]
      refine ⟨lowerS (nameOf e), hek, ?_⟩
      cases hemp : (findDirsNamed t (lowerS (nameOf e))).isEmpty
      · simp
      · rw [List.isEmpty_iff] at hemp
        rw [hemp] at hmem
        cases hmem
    unfold dataLooksValid
    simp [h1, h2, h34, h5, h6]
  · decide

/-- Witness for C2 at the concrete canonical tree with an override
directory holding one texture. -/
theorem c2_canonical_root_valid_witness :
    dataLooksValid [FileTree.dir "override" [FileTree.file "a.tga"]]
      = CheckReturn.VALID :=
  c2_canonical_root_valid.1 _ (by decide) (by decide) (by decide) (by decide)
    ⟨FileTree.dir "override" [FileTree.file "a.tga"], by decide, by decide, by decide⟩

/-- C2 counterexample: the tree whose sole top-level entry is a
directory named data containing a bif file is classified INVALID by the
restricted-directory rule, not VALID as the claim states. -/
theorem c2_counterexample_data_tree_invalid :
    dataLooksValid [FileTree.dir "data" [FileTree.file "a.bif"]]
        = CheckReturn.INVALID
    ∧ dataLooksValid [FileTree.dir "data" [FileTree.file "a.bif"]]
        ≠ CheckReturn.VALID := by
  decide

/-- With no tslpatchdata directory anywhere, fix proceeds to the
valid-directories stage. -/
theorem fix_no_tsl (uchoice : List String → Option Nat) (t : List FileTree)
    (h : (dirsWithParent "" t).filter
        (fun p => lowerS (nameOf p.2) = lowerS "tslpatchdata") = []) :
    fix uchoice t = fixAfterTsl uchoice t := by
  simp only [fix, h]
  simp

/-- With at most one candidate directory, no prompt happens and fix
proceeds to the flatten stage. -/
theorem fixAfterTsl_not_many (uchoice : List String → Option Nat) (t : List FileTree)
    (h : ¬ (1 < (validDirsOf t).length)) :
    fixAfterTsl uchoice t = fixFlatten t := by
  simp only [fixAfterTsl]
  rw [if_neg h]

/-- A declined prompt at the valid-directories stage falls through to
the flatten stage. -/
theorem fixAfterTsl_declined (t : List FileTree) :
    fixAfterTsl (fun _ => none) t = fixFlatten t := by
  simp only [fixAfterTsl]
  split
  · rfl
  · rfl

/-- With every prompt declined and no single tslpatchdata directory, fix
falls through to the flatten stage. -/
theorem fix_declined (t : List FileTree)
    (htsl : ((dirsWithParent "" t).filter
        (fun p => lowerS (nameOf p.2) = lowerS "tslpatchdata")).length ≠ 1) :
    fix (fun _ => none) t = fixFlatten t := by
  simp only [fix]
  split
  · exact fixAfterTsl_declined t
  · exact fixAfterTsl_declined t

/-- Without exactly one root directory the flatten stage falls through
to the loose-file stage. -/
theorem fixFlatten_no_single_root (t : List FileTree)
    (hroot : (t.filter isDirB).length ≠ 1) :
    fixFlatten t = fixLoose t := by
  unfold fixFlatten
  cases hfd : t.filter isDirB with
  | nil => rfl
  | cons k ks =>
      cases ks with
      | nil => exact absurd (by rw [hfd]; rfl) hroot
      | cons k2 ks2 => rfl

/-- Without non-ignored loose root files the loose-file stage returns
the tree unchanged. -/
theorem fixLoose_none (t : List FileTree)
    (hloose : (t.filter (fun e => !isDirB e)).filter
        (fun f => !(endsWithAnyS (lowerS (nameOf f)) ignoredExts)) = []) :
    fixLoose t = t := by
  simp only [fixLoose, hloose]
  simp

/-- C3 (amended): a declined user choice does not stop fix; it falls
through to the remaining rewrite stages, which may rewrite the tree. The
tree is returned unchanged whenever, additionally, no later stage can
act on it: no single tslpatchdata directory, no single root-level
directory, and no non-ignored loose root file. (These conditions are
sufficient, not necessary: a later stage may also happen to leave the
tree intact.) -/
theorem c3_declined_choice_unchanged (t : List FileTree)
    (htsl : ((dirsWithParent "" t).filter
        (fun p => lowerS (nameOf p.2) = lowerS "tslpatchdata")).length ≠ 1)
    (hroot : (t.filter isDirB).length ≠ 1)
    (hloose : (t.filter (fun e => !isDirB e)).filter
        (fun f => !(endsWithAnyS (lowerS (nameOf f)) ignoredExts)) = []) :
    fix (fun _ => none) t = t := by
  rw [fix_declined t htsl, fixFlatten_no_single_root t hroot, fixLoose_none t hloose]

/-- Witness for C3: declining the choice between two candidate mod
directories leaves this two-directory tree unchanged, because no later
stage applies to it. -/
theorem c3_declined_choice_unchanged_witness :
    fix (fun _ => none)
        [FileTree.dir "A" [FileTree.file "x.uti"],
         FileTree.dir "B" [FileTree.file "y.uti"]]
      = [FileTree.dir "A" [FileTree.file "x.uti"],
         FileTree.dir "B" [FileTree.file "y.uti"]] :=
  c3_declined_choice_unchanged _ (by decide) (by decide) (by decide)

/-- C3 counterexample: this tree prompts a choice (two directories hold
mod files); with the choice declined, fix still falls through to the
single-root flatten stage and rewrites the tree, dropping the nested
Sub directory and its file, instead of leaving the tree unchanged. -/
theorem c3_counterexample_declined_still_rewrites :
    1 < (validDirsOf
        [FileTree.dir "Wrap"
          [FileTree.file "a.uti", FileTree.dir "Sub" [FileTree.file "b.uti"]]]).length
    ∧ fix (fun _ => none)
        [FileTree.dir "Wrap"
          [FileTree.file "a.uti", FileTree.dir "Sub" [FileTree.file "b.uti"]]]
        = [FileTree.dir "override" [FileTree.file "a.uti"]]
    ∧ fix (fun _ => none)
        [FileTree.dir "Wrap"
          [FileTree.file "a.uti", FileTree.dir "Sub" [FileTree.file "b.uti"]]]
        ≠ [FileTree.dir "Wrap"
            [FileTree.file "a.uti", FileTree.dir "Sub" [FileTree.file "b.uti"]]] := by
  decide

/-- Rule 5 never fires inside a forest of plain files. -/
theorem rule5Aux_files (fs : List FileTree) (hf : ∀ f ∈ fs, isDirB f = false) :
    rule5Aux true fs = false := by
  induction fs with
  | nil => rfl
  | cons f fs2 ih =>
      cases f with
      | file m =>
          simp only [rule5Aux, rule5T, Bool.false_or]
          exact ih (fun g hg => hf g (List.mem_cons_of_mem _ hg))
      | dir m cs =>
          have := hf (FileTree.dir m cs) (List.mem_cons_self _ _)
          simp [isDirB] at this

/-- Classification of a tree holding exactly an override directory of
plain files: VALID. -/
theorem dataLooksValid_override_files (fs : List FileTree)
    (hf : ∀ f ∈ fs, isDirB f = false) :
    dataLooksValid [FileTree.dir "override" fs] = CheckReturn.VALID := by
  have hiter := iterDirs_single "override" fs hf
  have h1 : rule1 [FileTree.dir "override" fs] = false := by
    unfold rule1 findDirsNamed
    rw [hiter]
    simp +decide [nameOf]
  have h2 : rule2 [FileTree.dir "override" fs] = false := by
    unfold rule2
    rw [hiter]
    simp +decide [nameOf]
  have h34 : rule34 [FileTree.dir "override" fs] = false := by
    unfold rule34
    simp +decide [nameOf, isDirB]
  have h5 : rule5Aux false [FileTree.dir "override" fs] = false := by
    unfold rule5Aux rule5T
    simp +decide [rule5Aux_files fs hf, nameOf]
  have h6 : rule6 [FileTree.dir "override" fs] = true := by
    unfold rule6 findDirsNamed
    rw [List.any_eq_true]
    refine ⟨"override", by decide, ?_⟩
    rw [hiter]
    simp +decide [nameOf]
  unfold dataLooksValid
  simp [h1, h2, h34, h5, h6]

/-- Moving a file child of the kept directory into an existing override
directory holding no child of the same case-folded name detaches it from
the kept directory and appends it to override. -/
theorem moveChildToOverride_step (n : String) (hn : lowerS n ≠ "override")
    (x : FileTree) (xs done : List FileTree)
    (hx : lowerS (nameOf x) ∉ done.map (fun f => lowerS (nameOf f))) :
    moveChildToOverride [FileTree.dir n (x :: xs), FileTree.dir "override" done] n x
      = [FileTree.dir n xs, FileTree.dir "override" (done ++ [x])] := by
  unfold moveChildToOverride
  have hfind : ([FileTree.dir n (x :: xs), FileTree.dir "override" done].find?
      (fun e => lowerS (nameOf e) = "override")) = some (FileTree.dir "override" done) := by
    rw [List.find?_cons_of_neg _ (by simp [nameOf, hn]),
      List.find?_cons_of_pos _ (by simp [nameOf, lowerS_override])]
  rw [hfind]
  have hany : (done.any fun c => lowerS (nameOf c) = lowerS (nameOf x)) = false := by
    rw [List.any_eq_false]
    intro c hc
    simp only [decide_eq_true_eq]
    intro hceq
    exact hx (List.mem_map.mpr ⟨c, hc, hceq⟩)
  have hno : ¬ ("override" = n) := fun h => hn (by rw [← h]; decide)
  have he : eraseFirstNode (x :: xs) x = xs := by
    unfold eraseFirstNode
    rw [if_pos rfl]
  simp [hany, hno, he]

/-- Folding the flatten moves over the snapshot children of the kept
directory empties it and transfers every child to override, provided the
case-folded names are pairwise distinct. -/
theorem moveFold (n : String) (hn : lowerS n ≠ "override") :
    ∀ (xs done : List FileTree),
      (((done ++ xs).map (fun f => lowerS (nameOf f))).Nodup) →
      xs.foldl (fun acc f => moveChildToOverride acc n f)
        [FileTree.dir n xs, FileTree.dir "override" done]
      = [FileTree.dir n [], FileTree.dir "override" (done ++ xs)] := by
  intro xs
  induction xs with
  | nil => intro done _; simp
  | cons x xs ih =>
      intro done hnd
      simp only [List.foldl_cons]
      have hx : lowerS (nameOf x) ∉ done.map (fun f => lowerS (nameOf f)) := by
        rw [List.map_append] at hnd
        rcases List.nodup_append.mp hnd with ⟨_, _, hdisj⟩
        intro hmem
        exact hdisj hmem (by simp)
      rw [moveChildToOverride_step n hn x xs done hx]
      have hres := ih (done ++ [x])
        (by
          have hc : (done ++ [x]) ++ xs = done ++ (x :: xs) := by simp
          rw [hc]
          exact hnd)
      rw [hres]
      simp

/-- C5 (amended): a tree whose root holds exactly one directory, with a
name that is not canonical or reserved, whose entries are plain files
with pairwise distinct case-folded names, is flattened without any
prompt: fix then classify yields VALID, and every original file whose
extension is accepted (not ignored and in the valid extension set)
remains reachable directly under override; the other files are removed
by the root cleanup. -/
theorem c5_flatten_valid_and_reachable (n : String) (fs : List FileTree)
    (uchoice : List String → Option Nat)
    (hn : lowerS n ∉ validTop)
    (hf : ∀ f ∈ fs, isDirB f = false)
    (hnd : (fs.map (fun f => lowerS (nameOf f))).Nodup) :
    fix uchoice [FileTree.dir n fs]
        = [FileTree.dir "override" (fs.filter keepOverrideChild)]
    ∧ dataLooksValid (fix uchoice [FileTree.dir n fs]) = CheckReturn.VALID
    ∧ ∀ f ∈ fs, splitextExtS (lowerS (nameOf f)) ∉ ignoredExts →
        splitextExtS (lowerS (nameOf f)) ∈ allValidExts →
        f ∈ overrideChildren (fix uchoice [FileTree.dir n fs]) := by
  have hnov : lowerS n ≠ "override" := by
    intro h
    exact hn (by rw [h]; decide)
  have hntsl : lowerS n ≠ "tslpatchdata" := by
    intro h
    exact hn (by rw [h]; decide)
  have hiter := iterDirs_single n fs hf
  have htsl : (dirsWithParent "" [FileTree.dir n fs]).filter
      (fun p => lowerS (nameOf p.2) = lowerS "tslpatchdata") = [] := by
    simp only [dirsWithParent, dirsWithParentT, dirsWithParent_files n fs hf,
      List.append_nil, List.nil_append]
    rw [List.filter_cons_of_neg (by simp [nameOf, lowerS_tslpatchdata, hntsl])]
    rfl
  have hvd : ¬ (1 < (validDirsOf [FileTree.dir n fs]).length) := by
    unfold validDirsOf
    rw [hiter]
    have hle := List.length_filter_le (fun d =>
      (childrenOf d).any (fun c =>
        !isDirB c && !(endsWithAnyS (lowerS (nameOf c)) ignoredExts)))
      [FileTree.dir n fs]
    simp only [List.length_cons, List.length_nil] at hle
    omega
  have hfd : ([FileTree.dir n fs]).filter isDirB = [FileTree.dir n fs] := by
    simp [isDirB]
  have hfo : findDirsNamed [FileTree.dir n fs] "override" = [] := by
    unfold findDirsNamed
    rw [hiter]
    rw [List.filter_cons_of_neg (by simp [nameOf, lowerS_override, hnov])]
    rfl
  have hfiles : fs.filter (fun c => !isDirB c) = fs :=
    List.filter_eq_self.mpr (fun f hfm => by simp [hf f hfm])
  have hfix : fix uchoice [FileTree.dir n fs]
      = [FileTree.dir "override" (fs.filter keepOverrideChild)] := by
    rw [fix_no_tsl uchoice _ htsl, fixAfterTsl_not_many uchoice _ hvd]
    simp only [fixFlatten, hfd]
    rw [hfo]
    simp only [List.isEmpty_nil, if_true, childrenOf, hfiles, List.cons_append,
      List.nil_append, nameOf]
    have hmf := moveFold n hnov fs [] (by simpa using hnd)
    simp only [List.nil_append] at hmf
    rw [hmf]
    unfold cleanupRoot
    rw [List.filter_cons_of_neg (by simp [nameOf, hn]),
      List.filter_cons_of_pos (by simp +decide [nameOf, lowerS_override])]
    simp only [List.filter_nil]
    unfold cleanOverrideFirst cleanOverrideT
    rw [if_pos lowerS_override]
    rfl
  refine ⟨hfix, ?_, ?_⟩
  · rw [hfix]
    exact dataLooksValid_override_files _
      (fun f hfm => hf f (List.mem_of_mem_filter hfm))
  · intro f hfm hig hval
    rw [hfix]
    unfold overrideChildren
    rw [List.find?_cons_of_pos _ (by simp [nameOf, lowerS_override])]
    exact List.mem_filter.mpr ⟨hfm, by simp [keepOverrideChild, hf f hfm, hig, hval]⟩

/-- Witness for C5 at a concrete wrapper directory with one texture and
one executable; the texture survives under override. -/
theorem c5_flatten_valid_and_reachable_witness :
    fix (fun _ => none) [FileTree.dir "MyMod" [FileTree.file "a.tga", FileTree.file "b.exe"]]
        = [FileTree.dir "override" [FileTree.file "a.tga"]]
    ∧ dataLooksValid (fix (fun _ => none)
        [FileTree.dir "MyMod" [FileTree.file "a.tga", FileTree.file "b.exe"]])
        = CheckReturn.VALID
    ∧ FileTree.file "a.tga" ∈ overrideChildren (fix (fun _ => none)
        [FileTree.dir "MyMod" [FileTree.file "a.tga", FileTree.file "b.exe"]]) := by
  have h := c5_flatten_valid_and_reachable "MyMod"
    [FileTree.file "a.tga", FileTree.file "b.exe"] (fun _ => none)
    (by decide) (by decide) (by decide)
  refine ⟨by rw [h.1]; decide, h.2.1, ?_⟩
  exact h.2.2 (FileTree.file "a.tga") (by decide) (by decide) (by decide)

/-- C5 counterexample: the wrapper directory holds one file, readme.txt;
fix flattens and classify returns VALID, but the file is dropped by the
root cleanup, so it is not reachable under override, contradicting the
claim that every original file is reachable there. -/
theorem c5_counterexample_file_dropped :
    fix (fun _ => none) [FileTree.dir "MyMod" [FileTree.file "readme.txt"]]
        = [FileTree.dir "override" []]
    ∧ dataLooksValid (fix (fun _ => none)
        [FileTree.dir "MyMod" [FileTree.file "readme.txt"]]) = CheckReturn.VALID
    ∧ FileTree.file "readme.txt" ∉ overrideChildren (fix (fun _ => none)
        [FileTree.dir "MyMod" [FileTree.file "readme.txt"]]) := by
  decide

/-- C4 (amended): fix is the identity on a canonical tree consisting of
a single top-level override directory whose entries are plain files with
accepted, non-ignored extensions; such a tree classifies VALID. On other
VALID trees fix can remove stray top-level entries and invalid override
contents. -/
theorem c4_fix_identity_on_clean_override (fs : List FileTree)
    (hf : ∀ f ∈ fs, isDirB f = false)
    (hgood : ∀ f ∈ fs, splitextExtS (lowerS (nameOf f)) ∉ ignoredExts
              ∧ splitextExtS (lowerS (nameOf f)) ∈ allValidExts) :
    dataLooksValid [FileTree.dir "override" fs] = CheckReturn.VALID
    ∧ ∀ uchoice : List String → Option Nat,
        fix uchoice [FileTree.dir "override" fs] = [FileTree.dir "override" fs] := by
  refine ⟨dataLooksValid_override_files fs hf, ?_⟩
  intro uchoice
  have hiter := iterDirs_single "override" fs hf
  have htsl : (dirsWithParent "" [FileTree.dir "override" fs]).filter
      (fun p => lowerS (nameOf p.2) = lowerS "tslpatchdata") = [] := by
    simp only [dirsWithParent, dirsWithParentT, dirsWithParent_files "override" fs hf,
      List.append_nil, List.nil_append]
    rw [List.filter_cons_of_neg (by simp +decide [nameOf])]
    rfl
  have hvd : ¬ (1 < (validDirsOf [FileTree.dir "override" fs]).length) := by
    unfold validDirsOf
    rw [hiter]
    have hle := List.length_filter_le (fun d =>
      (childrenOf d).any (fun c =>
        !isDirB c && !(endsWithAnyS (lowerS (nameOf c)) ignoredExts)))
      [FileTree.dir "override" fs]
    simp only [List.length_cons, List.length_nil] at hle
    omega
  have hfd : ([FileTree.dir "override" fs]).filter isDirB
      = [FileTree.dir "override" fs] := by
    simp [isDirB]
  have hfo : findDirsNamed [FileTree.dir "override" fs] "override"
      = [FileTree.dir "override" fs] := by
    unfold findDirsNamed
    rw [hiter]
    rw [List.filter_cons_of_pos (by simp [nameOf, lowerS_override])]
    rfl
  have hfiles : fs.filter (fun c => !isDirB c) = fs :=
    List.filter_eq_self.mpr (fun f hfm => by simp [hf f hfm])
  have hstep : ∀ f ∈ fs,
      moveChildToOverride [FileTree.dir "override" fs] "override" f
        = [FileTree.dir "override" fs] := by
    intro f hfm
    unfold moveChildToOverride
    rw [show ([FileTree.dir "override" fs].find?
        (fun e => lowerS (nameOf e) = "override"))
        = some (FileTree.dir "override" fs) from
      List.find?_cons_of_pos _ (by simp [nameOf, lowerS_override])]
    have hany2 : (fs.any fun c => lowerS (nameOf c) = lowerS (nameOf f)) = true :=
      List.any_eq_true.mpr ⟨f, hfm, by simp⟩
    simp only [hany2]
    rfl
  have hfold : ∀ (l : List FileTree), (∀ f ∈ l, f ∈ fs) →
      l.foldl (fun acc f => moveChildToOverride acc "override" f)
        [FileTree.dir "override" fs] = [FileTree.dir "override" fs] := by
    intro l
    induction l with
    | nil => intro _; rfl
    | cons f l ih =>
        intro hsub
        simp only [List.foldl_cons]
        rw [hstep f (hsub f (List.mem_cons_self _ _))]
        exact ih (fun g hg => hsub g (List.mem_cons_of_mem _ hg))
  have hkeep : fs.filter keepOverrideChild = fs :=
    List.filter_eq_self.mpr (fun f hfm => by
      simp [keepOverrideChild, hf f hfm, (hgood f hfm).1, (hgood f hfm).2])
  rw [fix_no_tsl uchoice _ htsl, fixAfterTsl_not_many uchoice _ hvd]
  simp only [fixFlatten, hfd]
  rw [hfo]
  simp only [List.isEmpty_cons, Bool.false_eq_true, if_false, childrenOf, hfiles,
    nameOf]
  rw [hfold fs (fun f hfm => hfm)]
  unfold cleanupRoot
  rw [List.filter_cons_of_pos (by simp +decide [nameOf, lowerS_override])]
  simp only [List.filter_nil]
  unfold cleanOverrideFirst cleanOverrideT
  rw [if_pos lowerS_override, hkeep]
  rfl

/-- Witness for C4 at a concrete clean override tree. -/
theorem c4_fix_identity_on_clean_override_witness :
    dataLooksValid [FileTree.dir "override" [FileTree.file "a.tga", FileTree.file "b.mdl"]]
        = CheckReturn.VALID
    ∧ fix (fun _ => none)
        [FileTree.dir "override" [FileTree.file "a.tga", FileTree.file "b.mdl"]]
        = [FileTree.dir "override" [FileTree.file "a.tga", FileTree.file "b.mdl"]] := by
  have h := c4_fix_identity_on_clean_override
    [FileTree.file "a.tga", FileTree.file "b.mdl"] (by decide)
    (by intro f hfm; fin_cases hfm <;> exact ⟨by decide, by decide⟩)
  exact ⟨h.1, h.2 (fun _ => none)⟩

/-- C4 counterexample: a VALID tree holding an override directory plus a
stray top-level readme.txt; fix removes the stray file, so it is not the
identity on this already-canonical tree. -/
theorem c4_counterexample_stray_file_removed :
    dataLooksValid [FileTree.dir "override" [FileTree.file "a.tga"], FileTree.file "readme.txt"]
        = CheckReturn.VALID
    ∧ fix (fun _ => none)
        [FileTree.dir "override" [FileTree.file "a.tga"], FileTree.file "readme.txt"]
        = [FileTree.dir "override" [FileTree.file "a.tga"]]
    ∧ fix (fun _ => none)
        [FileTree.dir "override" [FileTree.file "a.tga"], FileTree.file "readme.txt"]
        ≠ [FileTree.dir "override" [FileTree.file "a.tga"], FileTree.file "readme.txt"] := by
  decide


end Kotor2
